import Mathlib

/-!
# Verification of the SCML decision core (business-plan solver and contract signer)

Shallow embedding of `SCMLBusinessPlan.py` and `SCMLContractsSigner.py`.

Conventions of the embedding:
* Python `float` arithmetic is modelled by exact rational arithmetic (`ℚ`).
* Python dictionaries with a numeric default are modelled as total functions
  (absent key = default), or as association lists when the set of keys matters.
* The MILP backend (PuLP/CBC) is modelled by quantifying over the 0/1 solutions
  it may return: a solution is any Boolean assignment to the decision variables;
  the solver's output is assumed to be a feasible assignment maximising the
  objective ("optimal"), which is CBC's contract on a solved model.
* A Python function that can raise (assertion failures, index errors) is
  embedded as an `Option`-valued function, `none` marking the raised exception.
-/

namespace SCML

/-! ## Truncated-min kernel (`SCMLBusinessPlan.compute_min_expectation`)

Python source (SCMLBusinessPlan.py, lines 11-26):
```
ret = {0: 0.0}
temp = 1
for i in range(1, size):
    temp -= dict_data[i - 1] if i - 1 in dict_data else 0.0
    ret[i] = ret[i - 1] + temp
return ret
```
`cme_aux pmf i` is the pair `(ret[i], temp)` after loop iteration `i`
(iteration 0 being the initialisation). -/

/-- State of the `compute_min_expectation` loop after iteration `i`:
first component is `ret[i]`, second is the running `temp`. -/
def cme_aux (pmf : ℕ → ℚ) : ℕ → ℚ × ℚ
  | 0 => (0, 1)
  | i + 1 =>
    let p := cme_aux pmf i
    let temp := p.2 - pmf i
    (p.1 + temp, temp)

/-- The value `ret[i]` computed by the `compute_min_expectation` loop. -/
def cme_val (pmf : ℕ → ℚ) (i : ℕ) : ℚ := (cme_aux pmf i).1

/-- `compute_min_expectation(dict_data, size)` as a key-value list: the key `0`
is present from the initialisation `ret = {0: 0.0}`, and the loop
`for i in range(1, size)` adds the keys `1, ..., size-1` in order. -/
def compute_min_expectation (pmf : ℕ → ℚ) (size : ℕ) : List (ℕ × ℚ) :=
  (0, 0) :: (List.range' 1 (size - 1)).map (fun i => (i, cme_val pmf i))

/-- The CDF `F(i) = Σ_{k<i} pmf[k]`. -/
def cdF (pmf : ℕ → ℚ) (i : ℕ) : ℚ := ∑ k ∈ Finset.range i, pmf k

/-- The closed form `Σ_{i=1..y} (1 − F(i))` from the spec's algorithm
description (spec §4.A). -/
def cmeSum (pmf : ℕ → ℚ) (y : ℕ) : ℚ := ∑ i ∈ Finset.Icc 1 y, (1 - cdF pmf i)

lemma cme_aux_snd (pmf : ℕ → ℚ) (i : ℕ) : (cme_aux pmf i).2 = 1 - cdF pmf i := by
  induction i with
  | zero => simp [cme_aux, cdF]
  | succ n ih =>
    simp only [cme_aux, ih, cdF, Finset.sum_range_succ]
    ring

lemma cme_val_eq_cmeSum (pmf : ℕ → ℚ) (y : ℕ) : cme_val pmf y = cmeSum pmf y := by
  induction y with
  | zero => simp [cme_val, cme_aux, cmeSum]
  | succ n ih =>
    have hsucc : cmeSum pmf (n + 1) = cmeSum pmf n + (1 - cdF pmf (n + 1)) := by
      unfold cmeSum
      rw [← Finset.sum_Icc_succ_top (by omega : 1 ≤ n + 1)]
    simp only [cme_val, cme_aux] at ih ⊢
    rw [hsucc, ← ih, cme_aux_snd]
    simp [cdF, Finset.sum_range_succ]
    ring

lemma cme_val_zero (pmf : ℕ → ℚ) : cme_val pmf 0 = 0 := rfl

lemma cme_val_succ (pmf : ℕ → ℚ) (i : ℕ) :
    cme_val pmf (i + 1) = cme_val pmf i + (1 - cdF pmf (i + 1)) := by
  rw [cme_val_eq_cmeSum, cme_val_eq_cmeSum]
  unfold cmeSum
  rw [← Finset.sum_Icc_succ_top (by omega : 1 ≤ i + 1)]

/-- Keys of the returned table, in insertion order. -/
lemma cme_keys (pmf : ℕ → ℚ) (size : ℕ) (h : 1 ≤ size) :
    (compute_min_expectation pmf size).map Prod.fst = List.range size := by
  unfold compute_min_expectation
  rw [List.map_cons, List.map_map]
  have : (Prod.fst ∘ fun i => ((i : ℕ), cme_val pmf i)) = id := rfl
  rw [this, List.map_id]
  rw [List.range_eq_range']
  cases size with
  | zero => omega
  | succ n => simp [List.range'_succ]

lemma lookup_map_pair (f : ℕ → ℚ) (l : List ℕ) (y : ℕ) (hy : y ∈ l) :
    (l.map (fun i => (i, f i))).lookup y = some (f y) := by
  induction l with
  | nil => cases hy
  | cons a t ih =>
    rw [List.map_cons, List.lookup_cons]
    by_cases h : y = a
    · subst h; simp
    · have hmem : y ∈ t := by
        rcases List.mem_cons.mp hy with h' | h'
        · exact absurd h' h
        · exact h'
      have hne : (y == a) = false := beq_false_of_ne h
      simp [hne, ih hmem]

/-- Looking the table up at any key `y < size` returns the loop value `cme_val`. -/
lemma cme_lookup (pmf : ℕ → ℚ) (size : ℕ) (y : ℕ) (hy : y < size) :
    (compute_min_expectation pmf size).lookup y = some (cme_val pmf y) := by
  unfold compute_min_expectation
  rw [List.lookup_cons]
  by_cases h : y = 0
  · subst h; simp [cme_val, cme_aux]
  · have hmem : y ∈ List.range' 1 (size - 1) := by
      rw [List.mem_range'_1]
      omega
    have hne : (y == 0) = false := beq_false_of_ne h
    simp only [hne]
    exact lookup_map_pair (cme_val pmf) _ y hmem

lemma cmeSum_zero (pmf : ℕ → ℚ) : cmeSum pmf 0 = 0 := by
  simp [cmeSum]

lemma cmeSum_nonneg (pmf : ℕ → ℚ) (hsum : ∀ n, cdF pmf n ≤ 1) (y : ℕ) :
    0 ≤ cmeSum pmf y := by
  unfold cmeSum
  apply Finset.sum_nonneg
  intro i _
  have := hsum i
  linarith

lemma cmeSum_mono (pmf : ℕ → ℚ) (hsum : ∀ n, cdF pmf n ≤ 1) {y z : ℕ} (h : y ≤ z) :
    cmeSum pmf y ≤ cmeSum pmf z := by
  unfold cmeSum
  apply Finset.sum_le_sum_of_subset_of_nonneg
  · intro i hi
    rw [Finset.mem_Icc] at hi ⊢
    omega
  · intro i _ _
    have := hsum i
    linarith

/-- C5: for every well-formed PMF (non-negative masses, partial sums at most 1)
and every `q_max ≥ 1`, `compute_min_expectation` returns a table whose keys are
exactly `{0, ..., q_max-1}`, whose entry at `y` is `Σ_{i=1..y} (1 − F(i))`
(with `F` the CDF), with `table[0] = 0`, all entries non-negative, and entries
non-decreasing in `y`. -/
theorem cme_table_spec (pmf : ℕ → ℚ) (q_max : ℕ)
    (hq : 1 ≤ q_max)
    (hpos : ∀ k, 0 ≤ pmf k)
    (hsum : ∀ n, cdF pmf n ≤ 1) :
    ((compute_min_expectation pmf q_max).map Prod.fst = List.range q_max)
    ∧ (∀ y < q_max, (compute_min_expectation pmf q_max).lookup y = some (cmeSum pmf y))
    ∧ cmeSum pmf 0 = 0
    ∧ (∀ y, 0 ≤ cmeSum pmf y)
    ∧ (∀ y z, y ≤ z → cmeSum pmf y ≤ cmeSum pmf z) := by
  refine ⟨cme_keys pmf q_max hq, ?_, cmeSum_zero pmf,
    cmeSum_nonneg pmf hsum, fun y z h => cmeSum_mono pmf hsum h⟩
  intro y hy
  rw [cme_lookup pmf q_max y hy, cme_val_eq_cmeSum]

/-- Witness for C5 at the zero PMF with `q_max = 3`. -/
theorem cme_table_spec_witness :
    ((compute_min_expectation (fun _ => 0) 3).map Prod.fst = List.range 3)
    ∧ (∀ y < 3, (compute_min_expectation (fun _ => 0) 3).lookup y
        = some (cmeSum (fun _ => 0) y))
    ∧ cmeSum (fun _ => 0) 0 = 0
    ∧ (∀ y, 0 ≤ cmeSum (fun _ => 0) y)
    ∧ (∀ y z, y ≤ z → cmeSum (fun _ => 0) y ≤ cmeSum (fun _ => 0) z) :=
  cme_table_spec (fun _ => 0) 3 (by norm_num) (fun _ => le_refl 0)
    (fun n => by simp [cdF])

lemma cme_val_empty (y : ℕ) : cme_val (fun _ => 0) y = (y : ℚ) := by
  induction y with
  | zero => rfl
  | succ n ih =>
    rw [cme_val_succ, ih]
    simp [cdF]

/-- C9: applied to the empty PMF (all masses zero), `compute_min_expectation`
returns the identity table: `table[y] = y` for every `y ∈ {0, ..., size-1}`. -/
theorem cme_empty_pmf_identity (size : ℕ) (hsize : 1 ≤ size) (y : ℕ) (hy : y < size) :
    (compute_min_expectation (fun _ => 0) size).lookup y = some ((y : ℚ)) := by
  rw [cme_lookup _ size y hy, cme_val_empty]

/-- Witness for C9 at `size = 4`, `y = 3`. -/
theorem cme_empty_pmf_identity_witness :
    (compute_min_expectation (fun _ => 0) 4).lookup 3 = some ((3 : ℚ)) :=
  cme_empty_pmf_identity 4 (by norm_num) 3 (by norm_num)

/-! ## Business plan solver (`SCMLBusinessPlan.compute_business_plan`)

The solver builds 0/1 variables `inn_vars[t,k]`, `out_vars[t,k]` for
`t < horizon`, `k < q_max`.  We model a 0/1 solution as a pair of Boolean
assignments `b s : ℕ → ℕ → Bool` (a PuLP binary variable's solved value,
rounded).  The generated constraints and the objective are embedded below;
the CBC call is modelled by quantifying over assignments that satisfy all
generated constraints ("feasible") and maximise the objective ("optimal"). -/

/-- Normalisation of a caller-supplied commitment mapping
(SCMLBusinessPlan.py lines 83-99).  `None` becomes `defaultdict(int)`
(every key maps to 0).  A supplied mapping is copied by the loop
`for k, v in C_inn.items(): _G[k] = k`, which stores the KEY `k` as the
value (not the value `v`); keys not in the mapping default to 0. -/
def normalize_commitments (C : Option (List (ℕ × ℕ))) : ℕ → ℕ :=
  match C with
  | none => fun _ => 0
  | some l => fun t => if (l.lookup t).isSome then t else 0

/-- `inn[t][k]` (resp. `out[t][k]`): entry of the truncated-min table built by
`get_minima` (lines 28-54) from the time-`t` PMF; `Q t` is the PMF at time `t`. -/
def minima_table (Q : ℕ → ℕ → ℚ) (q_max t k : ℕ) : ℚ :=
  ((compute_min_expectation (Q t) q_max).lookup k).getD 0

lemma minima_table_eq (Q : ℕ → ℕ → ℚ) (q_max t k : ℕ) (hk : k < q_max) :
    minima_table Q q_max t k = cmeSum (Q t) k := by
  unfold minima_table
  rw [cme_lookup _ _ _ hk, cme_val_eq_cmeSum]
  rfl

/-- The read-back `buy_plan[t] = Σ_k int(k * inn_vars[t,k].varValue)`
(lines 217-224); identically for `sell_plan` from `out_vars`. -/
def planQty (q_max : ℕ) (v : ℕ → ℕ → Bool) (t : ℕ) : ℕ :=
  ∑ k ∈ Finset.range q_max, k * (if v t k then 1 else 0)

/-- Constraint family `Σ_k vars[t,k] ≤ 1` for each `t` (lines 140-142). -/
def onePerStep (horizon q_max : ℕ) (v : ℕ → ℕ → Bool) : Prop :=
  ∀ t < horizon, (∑ k ∈ Finset.range q_max, (if v t k then 1 else 0)) ≤ 1

/-- Optimistic inventory constraints (lines 145-157): for each `1 ≤ t < horizon`,
`Σ_k k·out_vars[t,k] ≤ Σ_{τ<t} Σ_k k·(inn_vars[τ,k] − out_vars[τ,k])`. -/
def optimisticInventory (horizon q_max : ℕ) (b s : ℕ → ℕ → Bool) : Prop :=
  ∀ t < horizon, 1 ≤ t →
    (planQty q_max s t : ℤ)
      ≤ ∑ τ ∈ Finset.range t, ((planQty q_max b τ : ℤ) - (planQty q_max s τ : ℤ))

/-- Expected realised quantity `Σ_k table[t][k] · vars[t,k]` of a side at `t`. -/
def expQty (q_max : ℕ) (table : ℕ → ℕ → ℚ) (v : ℕ → ℕ → Bool) (t : ℕ) : ℚ :=
  ∑ k ∈ Finset.range q_max, (if v t k then table t k else 0)

/-- Commitment-floor constraints (lines 177-184): for each `t < horizon`, the
expected realised sell (resp. buy) quantity is at least `C_out[t]`
(resp. `C_inn[t]`) — after the normalisation of lines 83-99. -/
def commitmentFloors (horizon q_max : ℕ) (inn out : ℕ → ℕ → ℚ)
    (Ci Co : ℕ → ℕ) (b s : ℕ → ℕ → Bool) : Prop :=
  ∀ t < horizon,
    (Co t : ℚ) ≤ expQty q_max out s t ∧ (Ci t : ℚ) ≤ expQty q_max inn b t

/-- Initial-state pinning in the `step == 0` branch (lines 189-194):
`out_vars[0,k] == 1` iff `k == C_out[0]`, else `== 0`. -/
def pinStep0 (q_max : ℕ) (Co : ℕ → ℕ) (s : ℕ → ℕ → Bool) : Prop :=
  ∀ k < q_max, (s 0 k = true ↔ k = Co 0)

/-- All constraints generated by `compute_business_plan` in the optimistic
regime with `step = 0`, with commitment mappings as supplied by the caller
(`C_inn`/`C_out` optional association lists, normalised per lines 83-99). -/
def PlanFeasible (horizon q_max : ℕ) (inn out : ℕ → ℕ → ℚ)
    (C_inn C_out : Option (List (ℕ × ℕ))) (b s : ℕ → ℕ → Bool) : Prop :=
  onePerStep horizon q_max b ∧ onePerStep horizon q_max s
    ∧ optimisticInventory horizon q_max b s
    ∧ commitmentFloors horizon q_max inn out
        (normalize_commitments C_inn) (normalize_commitments C_out) b s
    ∧ pinStep0 q_max (normalize_commitments C_out) s

instance (horizon q_max : ℕ) (v : ℕ → ℕ → Bool) :
    Decidable (onePerStep horizon q_max v) := by
  unfold onePerStep; infer_instance

instance (horizon q_max : ℕ) (b s : ℕ → ℕ → Bool) :
    Decidable (optimisticInventory horizon q_max b s) := by
  unfold optimisticInventory; infer_instance

instance (horizon q_max : ℕ) (inn out : ℕ → ℕ → ℚ) (Ci Co : ℕ → ℕ)
    (b s : ℕ → ℕ → Bool) :
    Decidable (commitmentFloors horizon q_max inn out Ci Co b s) := by
  unfold commitmentFloors; infer_instance

instance (q_max : ℕ) (Co : ℕ → ℕ) (s : ℕ → ℕ → Bool) :
    Decidable (pinStep0 q_max Co s) := by
  unfold pinStep0; infer_instance

instance (horizon q_max : ℕ) (inn out : ℕ → ℕ → ℚ)
    (C_inn C_out : Option (List (ℕ × ℕ))) (b s : ℕ → ℕ → Bool) :
    Decidable (PlanFeasible horizon q_max inn out C_inn C_out b s) := by
  unfold PlanFeasible; infer_instance

/-- Objective (lines 130-136):
`Σ_{t,k} out_vars[t,k]·out[t][k]·p_out[t] − inn_vars[t,k]·inn[t][k]·p_inn[t]`. -/
def planObjective (horizon q_max : ℕ) (inn out : ℕ → ℕ → ℚ)
    (p_inn p_out : ℕ → ℚ) (b s : ℕ → ℕ → Bool) : ℚ :=
  ∑ t ∈ Finset.range horizon, ∑ k ∈ Finset.range q_max,
    ((if s t k then out t k * p_out t else 0) - (if b t k then inn t k * p_inn t else 0))

/-- Keys of the dictionary literally returned by `compute_business_plan`
(lines 227-242). -/
def business_plan_result_keys : List String :=
  ["horizon", "q_max", "out", "inn", "p_out", "p_inn", "optimistic",
   "time_to_generate_variables", "time_to_generate_objective",
   "time_to_generate_constraints", "time_to_solve", "time_to_read_plan",
   "buy_plan", "sell_plan"]

/-- C1 (code bug): the commitment normalisation of lines 83-99 executes
`_G[k] = k`, storing the key instead of the caller-supplied committed
quantity.  With `C_inn = {2: 5}` the floor imposed at `t = 2` is `2`, not the
caller's `5`; absent keys do default to `0`. -/
theorem commitment_floor_uses_key_not_value :
    normalize_commitments (some [(2, 5)]) 2 = 2
    ∧ normalize_commitments (some [(2, 5)]) 2 ≠ 5
    ∧ normalize_commitments (some [(2, 5)]) 7 = 0
    ∧ normalize_commitments none 2 = 0 := by
  refine ⟨rfl, by decide, rfl, rfl⟩

/-- C2 (counterexample): the dictionary returned by `compute_business_plan`
has no `model_status` key at all — the solver status is not surfaced in the
result, contrary to the claim. -/
theorem business_plan_result_has_no_model_status :
    ("model_status" ∈ business_plan_result_keys) = False := by
  simp [business_plan_result_keys]

/-- C2 (amended): the result of `compute_business_plan` carries exactly the
keys written at lines 227-242 — `buy_plan` and `sell_plan` are always present
(computed unconditionally from the variables' values) and no solver-status
key exists. -/
theorem business_plan_result_keys_spec :
    "buy_plan" ∈ business_plan_result_keys
    ∧ "sell_plan" ∈ business_plan_result_keys
    ∧ "model_status" ∉ business_plan_result_keys
    ∧ business_plan_result_keys.length = 14 := by
  refine ⟨by simp [business_plan_result_keys], by simp [business_plan_result_keys],
    by simp [business_plan_result_keys], rfl⟩

lemma planQty_lt (q_max : ℕ) (hq : 1 ≤ q_max) (v : ℕ → ℕ → Bool) (t : ℕ)
    (hv : (∑ k ∈ Finset.range q_max, (if v t k then 1 else 0)) ≤ 1) :
    planQty q_max v t < q_max := by
  have hle : planQty q_max v t
      ≤ (q_max - 1) * ∑ k ∈ Finset.range q_max, (if v t k then 1 else 0) := by
    unfold planQty
    rw [Finset.mul_sum]
    apply Finset.sum_le_sum
    intro k hk
    rw [Finset.mem_range] at hk
    have hk' : k ≤ q_max - 1 := by omega
    exact Nat.mul_le_mul_right _ hk'
  have : (q_max - 1) * ∑ k ∈ Finset.range q_max, (if v t k then 1 else 0)
      ≤ (q_max - 1) * 1 := Nat.mul_le_mul_left _ hv
  omega

/-- C8: for every solution of the generated model (binary variables
satisfying the one-target-per-step constraints of lines 140-142), the
read-back plans of lines 217-224 satisfy `0 ≤ buy_plan[t] < q_max` and
`0 ≤ sell_plan[t] < q_max` at every `t < horizon`. -/
theorem plan_bounds (horizon q_max : ℕ) (hq : 1 ≤ q_max) (b s : ℕ → ℕ → Bool)
    (hb : onePerStep horizon q_max b) (hs : onePerStep horizon q_max s)
    (t : ℕ) (ht : t < horizon) :
    0 ≤ planQty q_max b t ∧ planQty q_max b t < q_max
    ∧ 0 ≤ planQty q_max s t ∧ planQty q_max s t < q_max :=
  ⟨Nat.zero_le _, planQty_lt q_max hq b t (hb t ht),
   Nat.zero_le _, planQty_lt q_max hq s t (hs t ht)⟩

/-- Witness for C8 at `horizon = 1`, `q_max = 2` and the all-zero solution. -/
theorem plan_bounds_witness :
    0 ≤ planQty 2 (fun _ _ => false) 0 ∧ planQty 2 (fun _ _ => false) 0 < 2
    ∧ 0 ≤ planQty 2 (fun _ _ => false) 0 ∧ planQty 2 (fun _ _ => false) 0 < 2 :=
  plan_bounds 1 2 (by norm_num) (fun _ _ => false) (fun _ _ => false)
    (by intro t _; simp [Finset.sum_ite_eq]) (by intro t _; simp) 0 (by norm_num)

lemma normalize_commitments_at_zero (C : Option (List (ℕ × ℕ))) :
    normalize_commitments C 0 = 0 := by
  cases C with
  | none => rfl
  | some l => simp [normalize_commitments]

lemma planQty_zero_of_pin (q_max : ℕ) (Co : ℕ → ℕ) (s : ℕ → ℕ → Bool)
    (hpin : pinStep0 q_max Co s) (hCo : Co 0 = 0) : planQty q_max s 0 = 0 := by
  unfold planQty
  apply Finset.sum_eq_zero
  intro k hk
  rw [Finset.mem_range] at hk
  by_cases h : s 0 k = true
  · have : k = Co 0 := (hpin k hk).mp h
    rw [this, hCo]
    simp
  · simp [h]

/-- C7 (amended): in the optimistic regime with `step = 0`, every solution of
the generated constraints satisfies `Σ_t sell_plan[t] ≤ Σ_t buy_plan[t]`.
(The claimed equality can fail at strictly profitable optima, e.g. when
commitment floors force a buy at the last time step.) -/
theorem optimistic_total_sell_le_total_buy
    (horizon q_max : ℕ) (inn out : ℕ → ℕ → ℚ)
    (C_inn C_out : Option (List (ℕ × ℕ))) (b s : ℕ → ℕ → Bool)
    (hfeas : PlanFeasible horizon q_max inn out C_inn C_out b s) :
    ∑ t ∈ Finset.range horizon, planQty q_max s t
      ≤ ∑ t ∈ Finset.range horizon, planQty q_max b t := by
  obtain ⟨-, -, hinv, -, hpin⟩ := hfeas
  by_cases h0 : horizon = 0
  · subst h0; simp
  obtain ⟨n, rfl⟩ : ∃ n, horizon = n + 1 := ⟨horizon - 1, by omega⟩
  by_cases h1 : n = 0
  · subst h1
    have hz : planQty q_max s 0 = 0 :=
      planQty_zero_of_pin q_max _ s hpin (normalize_commitments_at_zero C_out)
    simp [hz]
  · have hcon := hinv n (by omega) (by omega)
    rw [Finset.sum_sub_distrib, ← Nat.cast_sum, ← Nat.cast_sum] at hcon
    have e1 := Finset.sum_range_succ (fun t => planQty q_max s t) n
    have e2 := Finset.sum_range_succ (fun t => planQty q_max b t) n
    rw [e1, e2]
    omega

/-- Witness for the amended C7 at `horizon = 1`, `q_max = 1` with the pinned
solution. -/
theorem optimistic_total_sell_le_total_buy_witness :
    ∑ t ∈ Finset.range 1, planQty 1 (fun t k => decide (t = 0 ∧ k = 0)) t
      ≤ ∑ t ∈ Finset.range 1, planQty 1 (fun _ _ => false) t := by
  apply optimistic_total_sell_le_total_buy 1 1 (fun _ _ => 0) (fun _ _ => 0) none none
    (fun _ _ => false) (fun t k => decide (t = 0 ∧ k = 0))
  refine ⟨?_, ?_, ?_, ?_, ?_⟩
  · intro t _
    simp
  · intro t ht
    obtain rfl : t = 0 := by omega
    simp
  · intro t ht h1t
    omega
  · intro t ht
    obtain rfl : t = 0 := by omega
    constructor <;> simp [normalize_commitments, expQty]
  · intro k hk
    obtain rfl : k = 0 := by omega
    simp [normalize_commitments]

/-! ### Counterexample instance for C7

`horizon = 2`, `q_max = 2`.  Both PMFs put all mass on quantity 1, so the
truncated-min tables are `table[0] = 0`, `table[1] = 1`.  Input price 1 at all
times, output price 10 at `t = 1` (0 at `t = 0`).  The caller commits
`C_inn = {1: 1}`, forcing an expected buy of 1 at the final step; hence every
feasible solution buys strictly more than it sells, while the optimum
(buy 1 at `t = 0` and `t = 1`, sell 1 at `t = 1`) has profit `10 − 1 − 1 = 8 > 0`. -/

/-- Point-mass-at-1 PMF for each time step (C7 counterexample data). -/
def cexQ : ℕ → ℕ → ℚ := fun _ k => if k = 1 then 1 else 0

/-- Truncated-min tables of the C7 counterexample, built by `get_minima`. -/
def cexTab : ℕ → ℕ → ℚ := fun t k => minima_table cexQ 2 t k

/-- Input prices of the C7 counterexample. -/
def cexPinn : ℕ → ℚ := fun _ => 1

/-- Output prices of the C7 counterexample. -/
def cexPout : ℕ → ℚ := fun t => if t = 1 then 10 else 0

/-- Caller-supplied input commitments of the C7 counterexample. -/
def cexCinn : Option (List (ℕ × ℕ)) := some [(1, 1)]

/-- The optimal buy assignment of the C7 counterexample: buy 1 at both steps. -/
def cexBuy : ℕ → ℕ → Bool := fun _ k => decide (k = 1)

/-- The optimal sell assignment of the C7 counterexample: pinned `k = 0`
at `t = 0`, sell 1 at `t = 1`. -/
def cexSell : ℕ → ℕ → Bool := fun t k => decide ((t = 0 ∧ k = 0) ∨ (t = 1 ∧ k = 1))

lemma cexTab_zero (t : ℕ) : cexTab t 0 = 0 := by
  unfold cexTab
  rw [minima_table_eq cexQ 2 t 0 (by norm_num), cmeSum_zero]

lemma cexTab_one (t : ℕ) : cexTab t 1 = 1 := by
  unfold cexTab
  rw [minima_table_eq cexQ 2 t 1 (by norm_num)]
  unfold cmeSum cdF
  rw [Finset.Icc_self, Finset.sum_singleton, Finset.sum_range_one]
  norm_num [cexQ]

lemma cexCinn_norm_zero : normalize_commitments cexCinn 0 = 0 := rfl

lemma cexCinn_norm_one : normalize_commitments cexCinn 1 = 1 := rfl

lemma planQty_two (v : ℕ → ℕ → Bool) (t : ℕ) :
    planQty 2 v t = if v t 1 then 1 else 0 := by
  simp [planQty, Finset.sum_range_succ]

lemma expQty_two (tab : ℕ → ℕ → ℚ) (v : ℕ → ℕ → Bool) (t : ℕ) :
    expQty 2 tab v t = (if v t 0 then tab t 0 else 0) + (if v t 1 then tab t 1 else 0) := by
  simp [expQty, Finset.sum_range_succ]

/-- At any feasible point of the C7 instance: commitments force a buy at the
final step. -/
lemma cex_forces_b11 (b s : ℕ → ℕ → Bool)
    (h : PlanFeasible 2 2 cexTab cexTab cexCinn none b s) : b 1 1 = true := by
  obtain ⟨-, -, -, hfl, -⟩ := h
  have h1 := (hfl 1 (by norm_num)).2
  rw [cexCinn_norm_one, expQty_two, cexTab_zero, cexTab_one] at h1
  by_contra hb
  rw [Bool.not_eq_true] at hb
  rw [hb] at h1
  norm_num at h1

/-- At any feasible point of the C7 instance: the pinned `t = 0` sell row. -/
lemma cex_pin_row (b s : ℕ → ℕ → Bool)
    (h : PlanFeasible 2 2 cexTab cexTab cexCinn none b s) :
    s 0 0 = true ∧ s 0 1 = false := by
  obtain ⟨-, -, -, -, hpin⟩ := h
  constructor
  · exact (hpin 0 (by norm_num)).mpr rfl
  · by_contra hs
    rw [Bool.not_eq_false] at hs
    have := (hpin 1 (by norm_num)).mp hs
    simp [normalize_commitments] at this

/-- At any feasible point of the C7 instance: selling at `t = 1` requires
having bought at `t = 0`. -/
lemma cex_inv_fact (b s : ℕ → ℕ → Bool)
    (h : PlanFeasible 2 2 cexTab cexTab cexCinn none b s) :
    (if s 1 1 then 1 else 0) ≤ (if b 0 1 then 1 else 0 : ℕ) := by
  have hfix := cex_pin_row b s h
  obtain ⟨-, -, hinv, -, -⟩ := h
  have h1 := hinv 1 (by norm_num) (by norm_num)
  rw [Finset.sum_range_one, planQty_two s 1, planQty_two b 0, planQty_two s 0,
    hfix.2] at h1
  simp at h1
  split_ifs at h1 ⊢ <;> omega

/-- C7 (counterexample): a valid optimistic business-plan input (`step = 0`)
whose optimum has profit `8 > 0`, but at which **every** feasible solution —
hence every plan the solver can return — has `Σ_t buy_plan[t] ≠ Σ_t
sell_plan[t]`: the commitment floor `C_inn = {1: 1}` forces a final-step buy
that can never be resold. -/
theorem optimistic_equality_counterexample :
    PlanFeasible 2 2 cexTab cexTab cexCinn none cexBuy cexSell
    ∧ planObjective 2 2 cexTab cexTab cexPinn cexPout cexBuy cexSell = 8
    ∧ (∀ b s, PlanFeasible 2 2 cexTab cexTab cexCinn none b s →
        planObjective 2 2 cexTab cexTab cexPinn cexPout b s ≤ 8)
    ∧ (∀ b s, PlanFeasible 2 2 cexTab cexTab cexCinn none b s →
        ∑ t ∈ Finset.range 2, planQty 2 b t ≠ ∑ t ∈ Finset.range 2, planQty 2 s t) := by
  have hobj : ∀ b s : ℕ → ℕ → Bool,
      planObjective 2 2 cexTab cexTab cexPinn cexPout b s
        = (if s 0 0 then cexTab 0 0 * cexPout 0 else 0)
          - (if b 0 0 then cexTab 0 0 * cexPinn 0 else 0)
          + ((if s 0 1 then cexTab 0 1 * cexPout 0 else 0)
          - (if b 0 1 then cexTab 0 1 * cexPinn 0 else 0))
          + ((if s 1 0 then cexTab 1 0 * cexPout 1 else 0)
          - (if b 1 0 then cexTab 1 0 * cexPinn 1 else 0))
          + ((if s 1 1 then cexTab 1 1 * cexPout 1 else 0)
          - (if b 1 1 then cexTab 1 1 * cexPinn 1 else 0)) := by
    intro b s
    simp [planObjective, Finset.sum_range_succ]
    ring
  refine ⟨?_, ?_, ?_, ?_⟩
  · refine ⟨?_, ?_, ?_, ?_, ?_⟩
    · intro t _
      simp [cexBuy, Finset.sum_range_succ]
    · intro t ht
      interval_cases t <;> simp [cexSell, Finset.sum_range_succ]
    · intro t ht h1t
      obtain rfl : t = 1 := by omega
      rw [Finset.sum_range_one]
      rw [planQty_two, planQty_two, planQty_two]
      simp [cexBuy, cexSell]
    · intro t ht
      interval_cases t
      · rw [cexCinn_norm_zero]
        constructor <;>
          · rw [expQty_two]
            simp [cexBuy, cexSell, cexTab_zero, cexTab_one, normalize_commitments]
      · rw [cexCinn_norm_one]
        constructor <;>
          · rw [expQty_two]
            simp [cexBuy, cexSell, cexTab_zero, cexTab_one, normalize_commitments]
    · intro k hk
      interval_cases k <;> simp [cexSell, normalize_commitments]
  · rw [hobj]
    norm_num [cexBuy, cexSell, cexTab_zero, cexTab_one, cexPinn, cexPout]
  · intro b s h
    have hb11 := cex_forces_b11 b s h
    have hrow := cex_pin_row b s h
    have hinv := cex_inv_fact b s h
    rw [hobj, cexTab_zero, cexTab_zero, cexTab_one, cexTab_one, hrow.1, hrow.2, hb11]
    by_cases hs : s 1 1 = true
    · have hb01 : b 0 1 = true := by
        rw [hs] at hinv
        by_contra hb
        rw [Bool.not_eq_true] at hb
        rw [hb] at hinv
        simp at hinv
      rw [hs, hb01]
      norm_num [cexPinn, cexPout]
    · rw [Bool.not_eq_true] at hs
      rw [hs]
      by_cases hb01 : b 0 1 = true <;>
        by_cases hb00 : b 0 0 = true <;>
          by_cases hb10 : b 1 0 = true <;>
            norm_num [hb01, hb00, hb10, cexPinn, cexPout]
  · intro b s h
    have hb11 := cex_forces_b11 b s h
    have hrow := cex_pin_row b s h
    have hinv := cex_inv_fact b s h
    have es := Finset.sum_range_succ (fun t => planQty 2 s t) 1
    have eb := Finset.sum_range_succ (fun t => planQty 2 b t) 1
    rw [es, eb, Finset.sum_range_one, Finset.sum_range_one,
      planQty_two b 0, planQty_two b 1, planQty_two s 0, planQty_two s 1,
      hrow.2, hb11]
    by_cases hs : s 1 1 = true <;> by_cases hb01 : b 0 1 = true <;>
      simp [hs, hb01] at hinv ⊢

/-! ## Contract signer (`SCMLContractsSigner`)

An agreement (negmas `Contract`) is modelled by the fields the signer reads:
`partners`, `agreement['quantity']`, `agreement['time']`,
`agreement['unit_price']`, `annotation['is_buy']`.  The trust table is an
association list (Python dict).

The ILP of `sign` has one binary variable per buy agreement and one per sell
agreement.  Since every agreement is on exactly one side, a solution is a
single Boolean assignment `σ : ℕ → Bool` indexed by the agreement's position
in the caller's input list (its `MASTER_INDEX`); the code's per-side
`SUB_INDEX` variables are in bijection with these positions. -/

/-- The fields of a negmas `Contract` read by the signer. -/
structure Contract where
  partners : List String
  quantity : ℕ
  time : ℕ
  unit_price : ℚ
  is_buy : Bool

/-- Junk contract used as the out-of-range default of list indexing. -/
def defaultContract : Contract := ⟨[], 0, 0, 0, false⟩

/-- The `i`-th agreement of the input list. -/
def agAt (ags : List Contract) (i : ℕ) : Contract := ags.getD i defaultContract

/-- `find_partner_trust` (SCMLContractsSigner.py lines 31-49): checks that
`partners` has exactly two distinct elements, one of them the agent, that the
partner is in the trust table, and that its trust lies in `[0,1]`; returns
the partner's trust.  `none` models a failed `assert`. -/
def find_partner_trust (agent_id : String) (c : Contract)
    (trust_probabilities : List (String × ℚ)) : Option ℚ :=
  match c.partners with
  | [p0, p1] =>
    if p0 ≠ p1 ∧ (p0 = agent_id ∨ p1 = agent_id) then
      let partner := if p0 ≠ agent_id then p0 else p1
      match trust_probabilities.lookup partner with
      | some τ => if 0 ≤ τ ∧ τ ≤ 1 then some τ else none
      | none => none
    else none
  | _ => none

/-- The partner trust, as a total function (only meaningful on valid input). -/
def trustOf (agent_id : String) (tp : List (String × ℚ)) (c : Contract) : ℚ :=
  (find_partner_trust agent_id c tp).getD 0

/-- A signer input is valid when every agreement passes the construction-time
validation performed by `partition_agreements` via `find_partner_trust`. -/
def ValidInput (agent_id : String) (ags : List Contract)
    (tp : List (String × ℚ)) : Bool :=
  ags.all (fun c => (find_partner_trust agent_id c tp).isSome)

/-- Risk-adjusted value `quantity · unit_price · partner_trust` of agreement `i`
(the objective coefficient, lines 132-143). -/
def valueOf (agent_id : String) (tp : List (String × ℚ)) (ags : List Contract)
    (i : ℕ) : ℚ :=
  ((agAt ags i).quantity : ℚ) * (agAt ags i).unit_price
    * trustOf agent_id tp (agAt ags i)

/-- Sum of the objective coefficients of the signed agreements of one side
(`side = true` for buys, `false` for sells). -/
def sideObj (agent_id : String) (tp : List (String × ℚ)) (ags : List Contract)
    (side : Bool) (σ : ℕ → Bool) : ℚ :=
  ∑ i ∈ (Finset.range ags.length).filter (fun i => (agAt ags i).is_buy = side),
    (if σ i then valueOf agent_id tp ags i else 0)

/-- The ILP objective (lines 130-143): risk-adjusted revenue of the signed
sell agreements minus risk-adjusted cost of the signed buy agreements. -/
def objS (agent_id : String) (tp : List (String × ℚ)) (ags : List Contract)
    (σ : ℕ → Bool) : ℚ :=
  sideObj agent_id tp ags false σ - sideObj agent_id tp ags true σ

/-- Total quantity of signed sell agreements with delivery time exactly `T`. -/
def sellQtyAt (ags : List Contract) (σ : ℕ → Bool) (T : ℕ) : ℕ :=
  ∑ i ∈ (Finset.range ags.length).filter
      (fun i => (agAt ags i).is_buy = false ∧ (agAt ags i).time = T),
    (if σ i then (agAt ags i).quantity else 0)

/-- Total quantity of signed sell agreements with delivery time `< T`. -/
def sellQtyBefore (ags : List Contract) (σ : ℕ → Bool) (T : ℕ) : ℕ :=
  ∑ i ∈ (Finset.range ags.length).filter
      (fun i => (agAt ags i).is_buy = false ∧ (agAt ags i).time < T),
    (if σ i then (agAt ags i).quantity else 0)

/-- Total quantity of signed buy agreements with delivery time `< T`. -/
def buyQtyBefore (ags : List Contract) (σ : ℕ → Bool) (T : ℕ) : ℕ :=
  ∑ i ∈ (Finset.range ags.length).filter
      (fun i => (agAt ags i).is_buy = true ∧ (agAt ags i).time < T),
    (if σ i then (agAt ags i).quantity else 0)

/-- The inventory constraints generated by the time-ordered sweep of lines
145-164: for each distinct sell time `T` (one constraint per group of sell
agreements with equal time, hence equivalently one per sell agreement),
`Σ (signed sells at T) ≤ Σ (signed buys with time < T) − Σ (signed sells
with time < T)`.  The sweep pops buys with `time < current_sell_time` into
`partial_buy_sum` (`constraints_generation_helper`, lines 17-29) and keeps
previously closed groups in `partial_sell_sum`; as the lists are sorted by time,
at the group of time `T` these accumulators hold exactly the buys with time
`< T` and the sells with time `< T`. -/
def FeasibleS (ags : List Contract) (σ : ℕ → Bool) : Prop :=
  ∀ i < ags.length, (agAt ags i).is_buy = false →
    (sellQtyAt ags σ (agAt ags i).time : ℤ)
      ≤ (buyQtyBefore ags σ (agAt ags i).time : ℤ)
        - (sellQtyBefore ags σ (agAt ags i).time : ℤ)

/-- The CBC solve of line 171, modelled by its contract on an optimally solved
model: the returned assignment is feasible and maximises the objective. -/
def OptimalS (agent_id : String) (tp : List (String × ℚ)) (ags : List Contract)
    (σ : ℕ → Bool) : Prop :=
  FeasibleS ags σ
    ∧ ∀ σ', FeasibleS ags σ' → objS agent_id tp ags σ' ≤ objS agent_id tp ags σ

instance (ags : List Contract) (σ : ℕ → Bool) : Decidable (FeasibleS ags σ) := by
  unfold FeasibleS; infer_instance

/-- The dictionary returned by `sign` (lines 85-94, 99-108, 184-192).
Timing floats and the PuLP model are `Option Unit`: `none` models Python
`None`, `some ()` a non-null value. -/
structure SignerResult where
  list_of_signatures : List (Option String)
  agent_id : String
  model : Option Unit
  time_to_generate_ilp : Option Unit
  time_to_solve_ilp : Option Unit
  agreements : List Contract
  trust_probabilities : List (String × ℚ)
  profit : Option ℚ

/-- `SCMLContractsSigner.sign` (lines 75-192), parameterised by the solver's
returned assignment `σ`.  Returns `none` when `partition_agreements` raises
on an invalid agreement.  Path structure of the source: empty input returns
the all-null result (lines 86-94) before validation; then validation (line
97); then the no-sell short-circuit (lines 99-108); otherwise the ILP is
built and solved, and the verdicts are read back per `MASTER_INDEX`
(lines 174-192), with `profit = pulp.value(model.objective)`. -/
def sign (agent_id : String) (ags : List Contract) (tp : List (String × ℚ))
    (σ : ℕ → Bool) : Option SignerResult :=
  if ags.length = 0 then
    some ⟨[], agent_id, none, none, none, ags, tp, none⟩
  else if ¬ ValidInput agent_id ags tp then none
  else if (ags.filter (fun c => c.is_buy = false)).length = 0 then
    some ⟨List.replicate ags.length none, agent_id, none, none, none, ags, tp, none⟩
  else
    some ⟨(List.range ags.length).map (fun i => if σ i then some agent_id else none),
      agent_id, some (), some (), some (), ags, tp,
      some (objS agent_id tp ags σ)⟩

/-- `max(a['agreement']['time'] for a in agreements)` over a non-empty list;
as times are naturals, folding `max` from 0 agrees with Python's `max`. -/
def maxTimeA (ags : List Contract) : ℕ := (ags.map (·.time)).foldl max 0

/-- Entry `t` of the plan vector accumulated by the loop of
`get_plan_as_lists` (lines 202-209): the loop adds `quantity` of each signed
agreement of the given side into the slot at its `time`, so slot `t` ends up
holding the sum below. -/
def accPlan (res : SignerResult) (side : Bool) (t : ℕ) : ℕ :=
  ∑ i ∈ (Finset.range res.agreements.length).filter
      (fun i => (agAt res.agreements i).is_buy = side
        ∧ (agAt res.agreements i).time = t),
    (if (res.list_of_signatures.getD i none).isSome
      then (agAt res.agreements i).quantity else 0)

/-- `SCMLContractsSigner.get_plan_as_lists` (lines 194-210). -/
def get_plan_as_lists (res : SignerResult) : ℕ × List ℕ × List ℕ :=
  if res.agreements.length = 0 then (0, [], [])
  else
    let horizon := maxTimeA res.agreements + 1
    (horizon,
      (List.range horizon).map (accPlan res true),
      (List.range horizon).map (accPlan res false))

/-- Inventory sweep of `is_sign_plan_consistent` (lines 227-231): starting
from 0, add `buy_plan[i-1] - sell_plan[i]` for `i = 1, ..., len-1` and fail
on a negative running level. -/
def inv_sweep : ℤ → List (ℕ × ℕ) → Bool
  | _, [] => true
  | level, (bq, sq) :: rest =>
    let level' := level + bq - sq
    if level' < 0 then false else inv_sweep level' rest

/-- `SCMLContractsSigner.is_sign_plan_consistent` (lines 212-232).  The three
`assert` statements (equal lengths, `sell_plan[0] == 0`,
`buy_plan[len-1] == 0`) raise on failure, as does indexing an empty plan:
both exceptions are modelled by `none`. -/
def is_sign_plan_consistent (res : SignerResult) : Option Bool :=
  match get_plan_as_lists res with
  | (_, buy_plan, sell_plan) =>
    if buy_plan.length ≠ sell_plan.length then none
    else
      match sell_plan.head?, buy_plan.getLast? with
      | some firstSell, some lastBuy =>
        if firstSell ≠ 0 then none
        else if lastBuy ≠ 0 then none
        else some (inv_sweep 0 (buy_plan.zip sell_plan.tail))
      | _, _ => none

/-! ### Greedy signer (`SCMLContractsSigner.greedy_signer`, lines 234-276) -/

/-- The agreement tuple built by `partition_agreements` (lines 51-73):
`(MASTER_INDEX, QUANTITY, TIME, PRICE, PARTNER_TRUST)`. -/
structure Tup where
  master : ℕ
  quantity : ℕ
  time : ℕ
  unit_price : ℚ
  trust : ℚ

/-- The tuple of agreement `i` (line 63-67). -/
def mkTup (agent_id : String) (tp : List (String × ℚ)) (ags : List Contract)
    (i : ℕ) : Tup :=
  ⟨i, (agAt ags i).quantity, (agAt ags i).time, (agAt ags i).unit_price,
    trustOf agent_id tp (agAt ags i)⟩

/-- One side of `partition_agreements` (lines 59-73): the loop walks the
input in order and appends the tuple of each agreement whose `is_buy` matches
the side. -/
def partitionSide (agent_id : String) (tp : List (String × ℚ))
    (ags : List Contract) (side : Bool) : List Tup :=
  ((List.range ags.length).filter (fun i => (agAt ags i).is_buy = side)).map
    (mkTup agent_id tp ags)

/-- Sort key `q·p·τ` of the greedy signer (lines 247-248). -/
def tupKey (a : Tup) : ℚ := (a.quantity : ℚ) * a.unit_price * a.trust

/-- Inner loop of the greedy signer for one sell agreement (lines 253-270):
walk the buy pool in order; buys with `time < stime` are accumulated until
the accumulated quantity reaches `need`; on success return the accumulated
buys and the pool with them removed (Python keeps non-accumulated buys in
their original order); if the pool is exhausted first, return `none` (the
sell agreement is skipped and the pool is left unchanged). -/
def takeCover (stime : ℕ) (need : ℕ) : List Tup → Option (List Tup × List Tup)
  | [] => none
  | b :: rest =>
    if b.time < stime then
      if need ≤ b.quantity then some ([b], rest)
      else
        match takeCover stime (need - b.quantity) rest with
        | some (used, rem) => some (b :: used, rem)
        | none => none
    else
      match takeCover stime need rest with
      | some (used, rem) => some (used, b :: rem)
      | none => none

/-- Risk-adjusted cost of a list of buy tuples (line 261). -/
def buyCost (used : List Tup) : ℚ :=
  (used.map (fun b => (b.quantity : ℚ) * b.unit_price * b.trust)).sum

/-- Outer loop of the greedy signer (lines 250-270): process the sell
agreements in order, accumulating profit and the `MASTER_INDEX`es of signed
buys and sells. -/
def greedy_loop : List Tup → List Tup → ℚ × List ℕ × List ℕ
  | [], _ => (0, [], [])
  | s :: rest, pool =>
    match takeCover s.time s.quantity pool with
    | none => greedy_loop rest pool
    | some (used, pool') =>
      let r := greedy_loop rest pool'
      (tupKey s - buyCost used + r.1, used.map (·.master) ++ r.2.1,
        s.master :: r.2.2)

/-- The dictionary returned by `greedy_signer` (lines 272-276); unlike
`sign`'s, it has no model/timing fields and its `profit` is always a number. -/
structure GreedyResult where
  agent_id : String
  agreements : List Contract
  list_of_signatures : List (Option String)
  trust_probabilities : List (String × ℚ)
  profit : ℚ

/-- Line 247: the buy agreements sorted ascending by `q·p·τ` (`sorted` with
`reverse=False`; `mergeSort` is the stable counterpart). -/
def sortedBuys (agent_id : String) (tp : List (String × ℚ))
    (ags : List Contract) : List Tup :=
  (partitionSide agent_id tp ags true).mergeSort
    (fun a b => decide (tupKey a ≤ tupKey b))

/-- Line 248: the sell agreements sorted descending by `q·p·τ` (`sorted` with
`reverse=True`, which is stable in Python; sorting with the reversed
comparator reproduces it). -/
def sortedSells (agent_id : String) (tp : List (String × ℚ))
    (ags : List Contract) : List Tup :=
  (partitionSide agent_id tp ags false).mergeSort
    (fun a b => decide (tupKey b ≤ tupKey a))

/-- `SCMLContractsSigner.greedy_signer` (lines 234-276): partition (with
validation), sort buys ascending and sells descending by `q·p·τ`, run the
greedy loop, and emit verdicts in input order. -/
def greedy_signer (agent_id : String) (ags : List Contract)
    (tp : List (String × ℚ)) : Option GreedyResult :=
  if ¬ ValidInput agent_id ags tp then none
  else
    let r := greedy_loop (sortedSells agent_id tp ags) (sortedBuys agent_id tp ags)
    some ⟨agent_id, ags,
      (List.range ags.length).map
        (fun i => if i ∈ r.2.1 ∨ i ∈ r.2.2 then some agent_id else none),
      tp, r.1⟩

/-! ### Basic facts about the signer ILP -/

/-- The all-skip assignment satisfies every generated inventory constraint. -/
lemma feasibleS_zero (ags : List Contract) : FeasibleS ags (fun _ => false) := by
  intro i _ _
  simp [sellQtyAt, sellQtyBefore, buyQtyBefore]

/-- The all-skip assignment has objective 0. -/
lemma objS_zero (agent_id : String) (tp : List (String × ℚ)) (ags : List Contract) :
    objS agent_id tp ags (fun _ => false) = 0 := by
  simp [objS, sideObj]

/-- The result record produced by the ILP branch of `sign` (lines 174-192). -/
def ilpResult (agent_id : String) (tp : List (String × ℚ)) (ags : List Contract)
    (σ : ℕ → Bool) : SignerResult :=
  ⟨(List.range ags.length).map (fun i => if σ i then some agent_id else none),
    agent_id, some (), some (), some (), ags, tp,
    some (objS agent_id tp ags σ)⟩

/-- When the input is non-empty, valid, and has at least one sell agreement,
`sign` takes the ILP path and returns the read-back result. -/
lemma sign_ilp_path (agent_id : String) (ags : List Contract)
    (tp : List (String × ℚ)) (σ : ℕ → Bool)
    (hne : ags.length ≠ 0) (hvalid : ValidInput agent_id ags tp = true)
    (hsell : (ags.filter (fun c => c.is_buy = false)).length ≠ 0) :
    sign agent_id ags tp σ
      = some (ilpResult agent_id tp ags σ) := by
  unfold ilpResult
  have hex : ∃ x ∈ ags, x.is_buy = false := by
    have hnil : (ags.filter (fun c => c.is_buy = false)) ≠ [] := by
      intro h
      rw [h] at hsell
      simp at hsell
    obtain ⟨c, hc⟩ := List.exists_mem_of_ne_nil _ hnil
    have hmem := List.mem_filter.mp hc
    exact ⟨c, hmem.1, by simpa using hmem.2⟩
  simp [sign, hne, hvalid, hsell, hex]

/-- C10: on every valid signer input with at least one buy and one sell
agreement, if the MILP solver returns an optimal solution then the reported
profit is non-negative, because the all-skip assignment is feasible with
objective 0. -/
theorem sign_profit_nonneg (agent_id : String) (ags : List Contract)
    (tp : List (String × ℚ)) (σ : ℕ → Bool)
    (hvalid : ValidInput agent_id ags tp = true)
    (hbuy : (ags.filter (fun c => c.is_buy = true)).length ≠ 0)
    (hsell : (ags.filter (fun c => c.is_buy = false)).length ≠ 0)
    (hopt : OptimalS agent_id tp ags σ) :
    ∃ r, sign agent_id ags tp σ = some r
      ∧ r.profit = some (objS agent_id tp ags σ)
      ∧ 0 ≤ objS agent_id tp ags σ := by
  have hne : ags.length ≠ 0 := by
    intro h
    rw [List.length_eq_zero] at h
    subst h
    simp at hsell
  refine ⟨_, sign_ilp_path agent_id ags tp σ hne hvalid hsell, rfl, ?_⟩
  have h0 := hopt.2 (fun _ => false) (feasibleS_zero ags)
  rw [objS_zero] at h0
  exact h0

/-- Witness input for the signer theorems: one buy at time 0 and one sell at
time 1, both with unit price 0 and a fully trusted partner. -/
def wAgs : List Contract :=
  [⟨["M", "O"], 1, 0, 0, true⟩, ⟨["M", "O"], 1, 1, 0, false⟩]

/-- Witness trust table. -/
def wTp : List (String × ℚ) := [("O", 1)]

lemma wAgs_obj_zero (σ : ℕ → Bool) : objS "M" wTp wAgs σ = 0 := by
  have h0 : agAt wAgs 0 = ⟨["M", "O"], 1, 0, 0, true⟩ := rfl
  have h1 : agAt wAgs 1 = ⟨["M", "O"], 1, 1, 0, false⟩ := rfl
  have hv0 : valueOf "M" wTp wAgs 0 = 0 := by simp [valueOf, h0]
  have hv1 : valueOf "M" wTp wAgs 1 = 0 := by simp [valueOf, h1]
  unfold objS sideObj
  rw [Finset.sum_filter, Finset.sum_filter]
  have hlen : wAgs.length = 2 := rfl
  rw [hlen]
  rw [Finset.sum_range_succ, Finset.sum_range_succ, Finset.sum_range_zero,
    Finset.sum_range_succ, Finset.sum_range_succ, Finset.sum_range_zero]
  simp [h0, h1, hv0, hv1]

lemma wAgs_optimal (σ : ℕ → Bool) (hf : FeasibleS wAgs σ) :
    OptimalS "M" wTp wAgs σ := by
  refine ⟨hf, fun σ' _ => ?_⟩
  rw [wAgs_obj_zero, wAgs_obj_zero]

/-- Witness for C10 at the all-skip solution of `wAgs`. -/
theorem sign_profit_nonneg_witness :
    ∃ r, sign "M" wAgs wTp (fun _ => false) = some r
      ∧ r.profit = some (objS "M" wTp wAgs (fun _ => false))
      ∧ 0 ≤ objS "M" wTp wAgs (fun _ => false) :=
  sign_profit_nonneg "M" wAgs wTp (fun _ => false) (by decide) (by decide)
    (by decide) (wAgs_optimal _ (feasibleS_zero wAgs))

/-- C6 (amended): a non-empty valid agreement list with no sell agreement is
answered with an all-null verdict, null diagnostics and null profit, without
invoking the MILP solver.  (The all-sell case, by contrast, does reach the
solver; see the counterexample.) -/
theorem sign_all_buy_short_circuit (agent_id : String) (ags : List Contract)
    (tp : List (String × ℚ)) (σ : ℕ → Bool)
    (hne : ags.length ≠ 0) (hvalid : ValidInput agent_id ags tp = true)
    (hallbuy : ∀ c ∈ ags, c.is_buy = true) :
    sign agent_id ags tp σ
      = some ⟨List.replicate ags.length none, agent_id, none, none, none,
          ags, tp, none⟩ := by
  have hsell : (ags.filter (fun c => c.is_buy = false)).length = 0 := by
    rw [List.length_eq_zero, List.filter_eq_nil_iff]
    intro c hc
    simp [hallbuy c hc]
  simp [sign, hne, hvalid, hsell]
  exact hallbuy

/-- Witness for the amended C6: one valid buy agreement. -/
theorem sign_all_buy_short_circuit_witness :
    sign "M" [⟨["M", "O"], 1, 0, 0, true⟩] wTp (fun _ => false)
      = some ⟨List.replicate 1 none, "M", none, none, none,
          [⟨["M", "O"], 1, 0, 0, true⟩], wTp, none⟩ :=
  sign_all_buy_short_circuit "M" _ wTp _ (by decide) (by decide) (by decide)

/-- C6 (counterexample): on an all-sell (non-empty) agreement list, `sign`
does **not** short-circuit: it reaches the MILP, so its result carries a
non-null model and non-null timing diagnostics, contrary to the claim that
all-sell inputs are answered without solver invocation and with all-null
diagnostics. -/
theorem sign_all_sell_invokes_solver :
    ∃ r, sign "M" [⟨["M", "O"], 1, 1, 0, false⟩] wTp (fun _ => false) = some r
      ∧ r.model = some () ∧ r.time_to_generate_ilp = some ()
      ∧ r.time_to_solve_ilp = some () ∧ r.profit ≠ none := by
  refine ⟨_,
    sign_ilp_path "M" _ wTp (fun _ => false) (by decide) (by decide) (by decide),
    rfl, rfl, rfl, by simp [ilpResult]⟩

/-! ### Consistency of the signed plan (C3 machinery) -/

lemma getD_map_range {α : Type} (f : ℕ → α) (n i : ℕ) (h : i < n) (d : α) :
    ((List.range n).map f).getD i d = f i := by
  rw [List.getD_eq_getElem?_getD]
  rw [List.getElem?_map, List.getElem?_range h]
  rfl

lemma le_foldl_max (l : List ℕ) (init : ℕ) :
    (∀ a ∈ l, a ≤ l.foldl max init) ∧ init ≤ l.foldl max init := by
  induction l generalizing init with
  | nil => simp
  | cons x t ih =>
    constructor
    · intro a ha
      rcases List.mem_cons.mp ha with rfl | hat
      · rw [List.foldl_cons]
        calc a ≤ max init a := le_max_right _ _
          _ ≤ List.foldl max (max init a) t := (ih (max init a)).2
      · rw [List.foldl_cons]
        exact (ih (max init x)).1 a hat
    · calc init ≤ max init x := le_max_left _ _
        _ ≤ (x :: t).foldl max init := by
          rw [List.foldl_cons]
          exact (ih (max init x)).2

/-- Every agreement's time is at most the implied horizon's last step. -/
lemma time_le_maxTimeA (ags : List Contract) (i : ℕ) (h : i < ags.length) :
    (agAt ags i).time ≤ maxTimeA ags := by
  have hmem : (agAt ags i).time ∈ ags.map (·.time) := by
    rw [List.mem_map]
    refine ⟨agAt ags i, ?_, rfl⟩
    unfold agAt
    rw [List.getD_eq_getElem _ _ h]
    exact List.getElem_mem _
  exact (le_foldl_max (ags.map (·.time)) 0).1 _ hmem

/-- Total quantity of signed buy agreements with delivery time exactly `T`. -/
def buyQtyAt (ags : List Contract) (σ : ℕ → Bool) (T : ℕ) : ℕ :=
  ∑ i ∈ (Finset.range ags.length).filter
      (fun i => (agAt ags i).is_buy = true ∧ (agAt ags i).time = T),
    (if σ i then (agAt ags i).quantity else 0)

/-- The plan vectors reconstructed from the ILP result of `sign` are the
per-time signed quantities of the assignment. -/
lemma accPlan_ilp (agent_id : String) (tp : List (String × ℚ))
    (ags : List Contract) (σ : ℕ → Bool) (side : Bool) (t : ℕ) :
    accPlan (ilpResult agent_id tp ags σ) side t
      = ∑ i ∈ (Finset.range ags.length).filter
          (fun i => (agAt ags i).is_buy = side ∧ (agAt ags i).time = t),
        (if σ i then (agAt ags i).quantity else 0) := by
  unfold accPlan ilpResult
  apply Finset.sum_congr rfl
  intro i hi
  rw [Finset.mem_filter, Finset.mem_range] at hi
  rw [getD_map_range _ _ _ hi.1]
  by_cases hσ : σ i <;> simp [hσ]

lemma accPlan_ilp_buy (agent_id : String) (tp : List (String × ℚ))
    (ags : List Contract) (σ : ℕ → Bool) (t : ℕ) :
    accPlan (ilpResult agent_id tp ags σ) true t = buyQtyAt ags σ t :=
  accPlan_ilp agent_id tp ags σ true t

lemma accPlan_ilp_sell (agent_id : String) (tp : List (String × ℚ))
    (ags : List Contract) (σ : ℕ → Bool) (t : ℕ) :
    accPlan (ilpResult agent_id tp ags σ) false t = sellQtyAt ags σ t :=
  accPlan_ilp agent_id tp ags σ false t

/-- Under the generated constraints nothing is sold at time 0. -/
lemma sellQtyAt_time_zero (ags : List Contract) (σ : ℕ → Bool)
    (hf : FeasibleS ags σ) : sellQtyAt ags σ 0 = 0 := by
  by_cases hex : ∃ i, i < ags.length ∧ (agAt ags i).is_buy = false
      ∧ (agAt ags i).time = 0
  · obtain ⟨i, hi, hb, ht⟩ := hex
    have hc := hf i hi hb
    rw [ht] at hc
    have hb0 : buyQtyBefore ags σ 0 = 0 := by
      unfold buyQtyBefore
      apply Finset.sum_eq_zero
      intro j hj
      rw [Finset.mem_filter] at hj
      omega
    have hs0 : sellQtyBefore ags σ 0 = 0 := by
      unfold sellQtyBefore
      apply Finset.sum_eq_zero
      intro j hj
      rw [Finset.mem_filter] at hj
      omega
    rw [hb0, hs0] at hc
    omega
  · unfold sellQtyAt
    apply Finset.sum_eq_zero
    intro j hj
    rw [Finset.mem_filter, Finset.mem_range] at hj
    exact absurd ⟨j, hj.1, hj.2.1, hj.2.2⟩ hex

lemma buyQtyBefore_mono (ags : List Contract) (σ : ℕ → Bool) {T1 T2 : ℕ}
    (h : T1 ≤ T2) : buyQtyBefore ags σ T1 ≤ buyQtyBefore ags σ T2 := by
  apply Finset.sum_le_sum_of_subset
  intro i hi
  rw [Finset.mem_filter] at hi ⊢
  exact ⟨hi.1, hi.2.1, by omega⟩

/-- Aggregate consequence of the generated constraints: the total signed sell
quantity with time `≤ T` never exceeds the total signed buy quantity with
time `< T` (strict 1-step conversion lag). -/
lemma sells_through_le_buys_before (ags : List Contract) (σ : ℕ → Bool)
    (hf : FeasibleS ags σ) (T : ℕ) :
    sellQtyBefore ags σ (T + 1) ≤ buyQtyBefore ags σ T := by
  by_cases hB : ((Finset.range ags.length).filter
      (fun i => (agAt ags i).is_buy = false ∧ (agAt ags i).time < T + 1)).Nonempty
  · obtain ⟨i0, hi0, hmax⟩ :=
      Finset.exists_max_image _ (fun i => (agAt ags i).time) hB
    rw [Finset.mem_filter, Finset.mem_range] at hi0
    have hcon := hf i0 hi0.1 hi0.2.1
    have hsplit : sellQtyBefore ags σ (T + 1)
        = sellQtyBefore ags σ ((agAt ags i0).time)
          + sellQtyAt ags σ ((agAt ags i0).time) := by
      unfold sellQtyBefore sellQtyAt
      rw [← Finset.sum_filter_add_sum_filter_not
        ((Finset.range ags.length).filter
          (fun i => (agAt ags i).is_buy = false ∧ (agAt ags i).time < T + 1))
        (fun i => (agAt ags i).time < (agAt ags i0).time)]
      congr 1
      · apply Finset.sum_congr _ (fun _ _ => rfl)
        rw [Finset.filter_filter]
        apply Finset.filter_congr
        intro i _
        constructor
        · rintro ⟨⟨hs, _⟩, hlt'⟩
          exact ⟨hs, hlt'⟩
        · rintro ⟨hs, hlt'⟩
          have : (agAt ags i0).time < T + 1 := hi0.2.2
          exact ⟨⟨hs, by omega⟩, hlt'⟩
      · apply Finset.sum_congr _ (fun _ _ => rfl)
        rw [Finset.filter_filter]
        apply Finset.filter_congr
        intro i hi
        rw [Finset.mem_range] at hi
        constructor
        · rintro ⟨⟨hs, hlt'⟩, hge⟩
          rw [not_lt] at hge
          have hle := hmax i (by
            rw [Finset.mem_filter, Finset.mem_range]
            exact ⟨hi, hs, hlt'⟩)
          exact ⟨hs, le_antisymm hle hge⟩
        · rintro ⟨hs, heq⟩
          have : (agAt ags i0).time < T + 1 := hi0.2.2
          exact ⟨⟨hs, by omega⟩, by omega⟩
    have hmono : buyQtyBefore ags σ ((agAt ags i0).time) ≤ buyQtyBefore ags σ T :=
      buyQtyBefore_mono ags σ (by have := hi0.2.2; omega)
    omega
  · unfold sellQtyBefore
    rw [Finset.not_nonempty_iff_eq_empty] at hB
    rw [hB, Finset.sum_empty]
    exact Nat.zero_le _

/-- Updating the assignment at an index outside the summation set leaves an
indicator sum unchanged. -/
lemma sum_ite_update_notmem {M : Type} [AddCommMonoid M] (A : Finset ℕ)
    (v : ℕ → M) (σ : ℕ → Bool) (i : ℕ) (hiA : i ∉ A) :
    ∑ j ∈ A, (if Function.update σ i false j then v j else 0)
      = ∑ j ∈ A, (if σ j then v j else 0) := by
  apply Finset.sum_congr rfl
  intro j hj
  have hne : j ≠ i := by
    rintro rfl
    exact hiA hj
  rw [Function.update_noteq hne]

/-- Un-signing a signed index subtracts its value from an indicator sum. -/
lemma sum_ite_update_false (A : Finset ℕ) (v : ℕ → ℚ) (σ : ℕ → Bool) (i : ℕ)
    (hiA : i ∈ A) (hσ : σ i = true) :
    ∑ j ∈ A, (if Function.update σ i false j then v j else 0)
      = (∑ j ∈ A, (if σ j then v j else 0)) - v i := by
  have h1 := Finset.add_sum_erase A (fun j => if σ j then v j else 0) hiA
  have h2 := Finset.add_sum_erase A
    (fun j => if Function.update σ i false j then v j else 0) hiA
  have h3 : ∑ j ∈ A.erase i, (if Function.update σ i false j then v j else 0)
      = ∑ j ∈ A.erase i, (if σ j then v j else 0) := by
    apply Finset.sum_congr rfl
    intro j hj
    rw [Function.update_noteq (Finset.ne_of_mem_erase hj)]
  rw [← h2, ← h1, h3]
  simp [hσ]

/-- Un-signing a last-step buy keeps the generated constraints satisfied:
such a buy occurs in no constraint (buys enter constraints only with
`time < T` for a sell time `T ≤ maxTimeA`). -/
lemma feasibleS_update_last_buy (ags : List Contract) (σ : ℕ → Bool) (i : ℕ)
    (hbuy : (agAt ags i).is_buy = true)
    (htime : (agAt ags i).time = maxTimeA ags)
    (hf : FeasibleS ags σ) : FeasibleS ags (Function.update σ i false) := by
  intro j hj hsj
  have hc := hf j hj hsj
  have e1 : sellQtyAt ags (Function.update σ i false) ((agAt ags j).time)
      = sellQtyAt ags σ ((agAt ags j).time) := by
    unfold sellQtyAt
    apply sum_ite_update_notmem
    intro hmem
    rw [Finset.mem_filter] at hmem
    rw [hmem.2.1] at hbuy
    cases hbuy
  have e2 : sellQtyBefore ags (Function.update σ i false) ((agAt ags j).time)
      = sellQtyBefore ags σ ((agAt ags j).time) := by
    unfold sellQtyBefore
    apply sum_ite_update_notmem
    intro hmem
    rw [Finset.mem_filter] at hmem
    rw [hmem.2.1] at hbuy
    cases hbuy
  have e3 : buyQtyBefore ags (Function.update σ i false) ((agAt ags j).time)
      = buyQtyBefore ags σ ((agAt ags j).time) := by
    unfold buyQtyBefore
    apply sum_ite_update_notmem
    intro hmem
    rw [Finset.mem_filter] at hmem
    have hjle := time_le_maxTimeA ags j hj
    have := hmem.2.2
    omega
  rw [e1, e2, e3]
  exact hc

/-- Un-signing a signed buy increases the objective by its value. -/
lemma objS_update_last_buy (agent_id : String) (tp : List (String × ℚ))
    (ags : List Contract) (σ : ℕ → Bool) (i : ℕ) (hin : i < ags.length)
    (hbuy : (agAt ags i).is_buy = true) (hσ : σ i = true) :
    objS agent_id tp ags (Function.update σ i false)
      = objS agent_id tp ags σ + valueOf agent_id tp ags i := by
  unfold objS sideObj
  have hnm : i ∉ (Finset.range ags.length).filter
      (fun j => (agAt ags j).is_buy = false) := by
    intro hmem
    rw [Finset.mem_filter] at hmem
    rw [hmem.2] at hbuy
    cases hbuy
  have hm : i ∈ (Finset.range ags.length).filter
      (fun j => (agAt ags j).is_buy = true) := by
    rw [Finset.mem_filter, Finset.mem_range]
    exact ⟨hin, hbuy⟩
  rw [sum_ite_update_notmem _ _ _ _ hnm,
    sum_ite_update_false _ _ _ _ hm hσ]
  ring

/-- At an optimal solution, no buy agreement at the implied horizon's last
step with strictly positive value is signed. -/
lemma optimal_no_buy_at_last (agent_id : String) (tp : List (String × ℚ))
    (ags : List Contract) (σ : ℕ → Bool)
    (hopt : OptimalS agent_id tp ags σ)
    (hpos : ∀ i < ags.length, (agAt ags i).is_buy = true →
        (agAt ags i).time = maxTimeA ags → 0 < valueOf agent_id tp ags i) :
    buyQtyAt ags σ (maxTimeA ags) = 0 := by
  unfold buyQtyAt
  apply Finset.sum_eq_zero
  intro i hi
  rw [Finset.mem_filter, Finset.mem_range] at hi
  by_cases hσ : σ i = true
  · exfalso
    have hfeas' := feasibleS_update_last_buy ags σ i hi.2.1 hi.2.2 hopt.1
    have hobj' := objS_update_last_buy agent_id tp ags σ i hi.1 hi.2.1 hσ
    have hle := hopt.2 _ hfeas'
    have hv := hpos i hi.1 hi.2.1 hi.2.2
    rw [hobj'] at hle
    linarith
  · rw [Bool.not_eq_true] at hσ
    simp [hσ]

lemma sum_list_range_eq (f : ℕ → ℤ) (n : ℕ) :
    ((List.range n).map f).sum = ∑ i ∈ Finset.range n, f i := rfl

/-- Summing the per-time signed quantities over `t < m` gives the signed
quantity with time `< m`. -/
lemma sum_sideAt_eq_before (ags : List Contract) (σ : ℕ → Bool) (side : Bool)
    (m : ℕ) :
    ∑ t ∈ Finset.range m, (∑ i ∈ (Finset.range ags.length).filter
        (fun i => (agAt ags i).is_buy = side ∧ (agAt ags i).time = t),
      (if σ i then (agAt ags i).quantity else 0))
    = ∑ i ∈ (Finset.range ags.length).filter
        (fun i => (agAt ags i).is_buy = side ∧ (agAt ags i).time < m),
      (if σ i then (agAt ags i).quantity else 0) := by
  rw [← Finset.sum_fiberwise_of_maps_to
    (fun i hi => by
      rw [Finset.mem_filter] at hi
      rw [Finset.mem_range]
      exact hi.2.2)
    (fun i => if σ i then (agAt ags i).quantity else 0)]
  apply Finset.sum_congr rfl
  intro y hy
  rw [Finset.mem_range] at hy
  apply Finset.sum_congr _ (fun _ _ => rfl)
  rw [Finset.filter_filter]
  apply Finset.filter_congr
  intro i _
  constructor
  · rintro ⟨hs, ht⟩
    refine ⟨⟨hs, ?_⟩, ht⟩
    omega
  · rintro ⟨⟨hs, _⟩, ht⟩
    exact ⟨hs, ht⟩

/-- The zipped list walked by the inventory sweep, as a map over indices. -/
lemma zip_plans_eq_map (F G : ℕ → ℕ) (n : ℕ) :
    (List.map F (List.range (n + 1))).zip ((List.map G (List.range (n + 1))).tail)
      = List.map (fun j => (F j, G (j + 1))) (List.range n) := by
  have ht : (List.map G (List.range (n + 1))).tail
      = List.map (fun j => G (j + 1)) (List.range n) := by
    rw [List.range_succ_eq_map, List.map_cons, List.tail_cons, List.map_map]
    rfl
  rw [ht]
  have hsplit : List.map F (List.range (n + 1))
      = List.map F (List.range n) ++ [F n] := by
    rw [← Nat.succ_eq_add_one, List.range_succ, List.map_append]
    rfl
  rw [hsplit,
    (List.append_nil (List.map (fun j => G (j + 1)) (List.range n))).symm,
    List.zip_append (by simp)]
  simp [List.zip_map']

/-- The inventory sweep succeeds when every prefix level is non-negative. -/
lemma inv_sweep_true (l : List (ℕ × ℕ)) : ∀ lvl : ℤ,
    (∀ m < l.length,
      0 ≤ lvl + ((l.take (m + 1)).map (fun p => (p.1 : ℤ) - p.2)).sum) →
    inv_sweep lvl l = true := by
  induction l with
  | nil => intro lvl _; rfl
  | cons p rest ih =>
    intro lvl h
    obtain ⟨bq, sq⟩ := p
    have h0 := h 0 (by simp)
    simp only [List.take_succ_cons, List.take_zero, List.map_cons, List.map_nil,
      List.sum_cons, List.sum_nil, add_zero] at h0
    unfold inv_sweep
    rw [if_neg (by omega)]
    apply ih
    intro m hm
    have hm' := h (m + 1) (by simp; omega)
    simp only [List.take_succ_cons, List.map_cons, List.sum_cons] at hm'
    omega

/-- Abstract correctness of the consistency checker: if the reconstructed
plans sell nothing at time 0, buy nothing at the last step, and every prefix
of buys covers the corresponding sells, the checker returns `some true`. -/
lemma checker_true_of_plans (res : SignerResult)
    (hne : res.agreements.length ≠ 0)
    (hsell0 : accPlan res false 0 = 0)
    (hbuylast : accPlan res true (maxTimeA res.agreements) = 0)
    (hlevel : ∀ m, (∑ j ∈ Finset.range (m + 1), (accPlan res false (j + 1) : ℤ))
        ≤ ∑ j ∈ Finset.range (m + 1), (accPlan res true j : ℤ)) :
    is_sign_plan_consistent res = some true := by
  unfold is_sign_plan_consistent get_plan_as_lists
  rw [if_neg hne]
  simp only
  have hlen : ((List.range (maxTimeA res.agreements + 1)).map (accPlan res true)).length
      = ((List.range (maxTimeA res.agreements + 1)).map (accPlan res false)).length := by
    simp
  rw [if_neg (by simp)]
  have hhead : ((List.range (maxTimeA res.agreements + 1)).map (accPlan res false)).head?
      = some (accPlan res false 0) := by
    rw [List.range_succ_eq_map, List.map_cons, List.head?_cons]
  have hlast : ((List.range (maxTimeA res.agreements + 1)).map (accPlan res true)).getLast?
      = some (accPlan res true (maxTimeA res.agreements)) := by
    rw [← Nat.succ_eq_add_one, List.range_succ, List.map_append, List.map_singleton,
      List.getLast?_concat]
  have hsweep : inv_sweep 0
      ((List.map (accPlan res true) (List.range (maxTimeA res.agreements + 1))).zip
        ((List.map (accPlan res false)
          (List.range (maxTimeA res.agreements + 1))).tail)) = true := by
    rw [zip_plans_eq_map]
    apply inv_sweep_true
    intro m hm
    rw [List.length_map, List.length_range] at hm
    rw [← List.map_take, List.take_range]
    have hmin : min (m + 1) (maxTimeA res.agreements) = m + 1 := by omega
    rw [hmin, List.map_map]
    have hsum : ((List.range (m + 1)).map
        ((fun p : ℕ × ℕ => (p.1 : ℤ) - p.2)
          ∘ (fun j => (accPlan res true j, accPlan res false (j + 1))))).sum
        = ∑ j ∈ Finset.range (m + 1),
            ((accPlan res true j : ℤ) - (accPlan res false (j + 1) : ℤ)) :=
      sum_list_range_eq _ _
    rw [hsum, zero_add, Finset.sum_sub_distrib]
    have := hlevel m
    omega
  rw [hhead, hlast, hsell0, hbuylast]
  simp [hsweep]

lemma sum_sellQtyAt (ags : List Contract) (σ : ℕ → Bool) (m : ℕ) :
    ∑ t ∈ Finset.range m, sellQtyAt ags σ t = sellQtyBefore ags σ m :=
  sum_sideAt_eq_before ags σ false m

lemma sum_buyQtyAt (ags : List Contract) (σ : ℕ → Bool) (m : ℕ) :
    ∑ t ∈ Finset.range m, buyQtyAt ags σ t = buyQtyBefore ags σ m :=
  sum_sideAt_eq_before ags σ true m

/-- `sign` on a non-empty valid input with no sell agreement: the all-null
short circuit of lines 99-108. -/
lemma sign_no_sell_path (agent_id : String) (ags : List Contract)
    (tp : List (String × ℚ)) (σ : ℕ → Bool)
    (hne : ags.length ≠ 0) (hvalid : ValidInput agent_id ags tp = true)
    (hsell : (ags.filter (fun c => c.is_buy = false)).length = 0) :
    sign agent_id ags tp σ
      = some ⟨List.replicate ags.length none, agent_id, none, none, none,
          ags, tp, none⟩ := by
  simp [sign, hne, hvalid, hsell]
  intro c hc
  by_contra hb
  rw [Bool.not_eq_true] at hb
  have hmem : c ∈ ags.filter (fun c => c.is_buy = false) :=
    List.mem_filter.mpr ⟨hc, by simp [hb]⟩
  rw [List.length_eq_zero] at hsell
  rw [hsell] at hmem
  cases hmem

lemma accPlan_replicate (agent_id : String) (ags : List Contract)
    (tp : List (String × ℚ)) (side : Bool) (t : ℕ) :
    accPlan ⟨List.replicate ags.length none, agent_id, none, none, none,
      ags, tp, none⟩ side t = 0 := by
  unfold accPlan
  apply Finset.sum_eq_zero
  intro i _
  have hnone : (List.replicate ags.length (none : Option String)).getD i none
      = none := by
    rw [List.getD_eq_getElem?_getD, List.getElem?_replicate]
    by_cases h : i < ags.length <;> simp [h]
  simp only
  rw [hnone]
  rfl

/-- C3 (amended): for every non-empty valid signer input, provided every buy
agreement at the implied horizon's last step has strictly positive
risk-adjusted value (e.g. positive price and trust), `is_sign_plan_consistent`
applied to the output of `sign` under any optimal solver solution returns
`true`: the signed plan satisfies `sell_plan[0] = 0`, `buy_plan[horizon-1] = 0`
and non-negative running inventory.  (Without the positive-value proviso an
optimal solution may sign a free last-step buy; see the counterexample.) -/
theorem sign_plan_consistent (agent_id : String) (ags : List Contract)
    (tp : List (String × ℚ)) (σ : ℕ → Bool)
    (hne : ags.length ≠ 0)
    (hvalid : ValidInput agent_id ags tp = true)
    (hopt : OptimalS agent_id tp ags σ)
    (hpos : ∀ i < ags.length, (agAt ags i).is_buy = true →
        (agAt ags i).time = maxTimeA ags → 0 < valueOf agent_id tp ags i) :
    ∃ r, sign agent_id ags tp σ = some r
      ∧ is_sign_plan_consistent r = some true := by
  by_cases hsell : (ags.filter (fun c => c.is_buy = false)).length = 0
  · refine ⟨_, sign_no_sell_path agent_id ags tp σ hne hvalid hsell, ?_⟩
    apply checker_true_of_plans
    · exact hne
    · exact accPlan_replicate agent_id ags tp false 0
    · exact accPlan_replicate agent_id ags tp true _
    · intro m
      apply Finset.sum_le_sum
      intro j _
      rw [accPlan_replicate, accPlan_replicate]
  · refine ⟨_, sign_ilp_path agent_id ags tp σ hne hvalid hsell, ?_⟩
    apply checker_true_of_plans
    · exact hne
    · rw [accPlan_ilp_sell]
      exact sellQtyAt_time_zero ags σ hopt.1
    · rw [accPlan_ilp_buy]
      exact optimal_no_buy_at_last agent_id tp ags σ hopt hpos
    · intro m
      have h0 : sellQtyAt ags σ 0 = 0 := sellQtyAt_time_zero ags σ hopt.1
      have hshift : ∑ t ∈ Finset.range (m + 2), sellQtyAt ags σ t
          = (∑ k ∈ Finset.range (m + 1), sellQtyAt ags σ (k + 1))
            + sellQtyAt ags σ 0 :=
        Finset.sum_range_succ' (fun t => sellQtyAt ags σ t) (m + 1)
      have hS := sum_sellQtyAt ags σ (m + 2)
      have hB := sum_buyQtyAt ags σ (m + 1)
      have hkey : sellQtyBefore ags σ (m + 2) ≤ buyQtyBefore ags σ (m + 1) :=
        sells_through_le_buys_before ags σ hopt.1 (m + 1)
      have hnat : (∑ j ∈ Finset.range (m + 1), sellQtyAt ags σ (j + 1))
          ≤ ∑ j ∈ Finset.range (m + 1), buyQtyAt ags σ j := by
        omega
      have hc : ((∑ j ∈ Finset.range (m + 1), sellQtyAt ags σ (j + 1) : ℕ) : ℤ)
          ≤ ((∑ j ∈ Finset.range (m + 1), buyQtyAt ags σ j : ℕ) : ℤ) :=
        Int.ofNat_le.mpr hnat
      rw [Nat.cast_sum, Nat.cast_sum] at hc
      calc (∑ j ∈ Finset.range (m + 1),
            (accPlan (ilpResult agent_id tp ags σ) false (j + 1) : ℤ))
          = ∑ j ∈ Finset.range (m + 1), (sellQtyAt ags σ (j + 1) : ℤ) := by
            apply Finset.sum_congr rfl
            intro j _
            rw [accPlan_ilp_sell]
        _ ≤ ∑ j ∈ Finset.range (m + 1), (buyQtyAt ags σ j : ℤ) := hc
        _ = ∑ j ∈ Finset.range (m + 1),
            (accPlan (ilpResult agent_id tp ags σ) true j : ℤ) := by
            apply Finset.sum_congr rfl
            intro j _
            rw [accPlan_ilp_buy]

/-- Witness for the amended C3 at `wAgs` (prices 0, so the all-skip solution
is optimal; no buy sits at the last step). -/
theorem sign_plan_consistent_witness :
    ∃ r, sign "M" wAgs wTp (fun _ => false) = some r
      ∧ is_sign_plan_consistent r = some true :=
  sign_plan_consistent "M" wAgs wTp (fun _ => false) (by decide) (by decide)
    (wAgs_optimal _ (feasibleS_zero wAgs)) (by decide)

/-- Counterexample input for C3: a sell at time 1 (price 10), a buy at time 0
(price 1) and a **zero-price** buy at time 2 — the last step of the implied
horizon.  All partners fully trusted. -/
def cexSags : List Contract :=
  [⟨["M", "O"], 1, 1, 10, false⟩, ⟨["M", "O"], 1, 0, 1, true⟩,
    ⟨["M", "O"], 1, 2, 0, true⟩]

lemma cexS_ag0 : agAt cexSags 0 = ⟨["M", "O"], 1, 1, 10, false⟩ := rfl

lemma cexS_ag1 : agAt cexSags 1 = ⟨["M", "O"], 1, 0, 1, true⟩ := rfl

lemma cexS_ag2 : agAt cexSags 2 = ⟨["M", "O"], 1, 2, 0, true⟩ := rfl

lemma cexS_v0 : valueOf "M" wTp cexSags 0 = 10 := by
  unfold valueOf trustOf find_partner_trust
  rw [cexS_ag0]
  norm_num [wTp]
  decide

lemma cexS_v1 : valueOf "M" wTp cexSags 1 = 1 := by
  unfold valueOf trustOf find_partner_trust
  rw [cexS_ag1]
  norm_num [wTp]
  decide

lemma cexS_v2 : valueOf "M" wTp cexSags 2 = 0 := by
  unfold valueOf trustOf find_partner_trust
  rw [cexS_ag2]
  norm_num [wTp]

lemma cexS_obj (σ' : ℕ → Bool) :
    objS "M" wTp cexSags σ'
      = (if σ' 0 then (10 : ℚ) else 0) - (if σ' 1 then (1 : ℚ) else 0) := by
  unfold objS sideObj
  rw [Finset.sum_filter, Finset.sum_filter,
    show cexSags.length = 3 from rfl]
  simp only [Finset.sum_range_succ, Finset.sum_range_zero]
  simp [cexS_ag0, cexS_ag1, cexS_ag2, cexS_v0, cexS_v1, cexS_v2]

lemma cexS_sellAt1 (σ' : ℕ → Bool) :
    sellQtyAt cexSags σ' 1 = (if σ' 0 then 1 else 0) := by
  unfold sellQtyAt
  rw [Finset.sum_filter, show cexSags.length = 3 from rfl]
  simp only [Finset.sum_range_succ, Finset.sum_range_zero]
  simp [cexS_ag0, cexS_ag1, cexS_ag2]

lemma cexS_buyBefore1 (σ' : ℕ → Bool) :
    buyQtyBefore cexSags σ' 1 = (if σ' 1 then 1 else 0) := by
  unfold buyQtyBefore
  rw [Finset.sum_filter, show cexSags.length = 3 from rfl]
  simp only [Finset.sum_range_succ, Finset.sum_range_zero]
  simp [cexS_ag0, cexS_ag1, cexS_ag2]

lemma cexS_sellBefore1 (σ' : ℕ → Bool) : sellQtyBefore cexSags σ' 1 = 0 := by
  unfold sellQtyBefore
  rw [Finset.sum_filter, show cexSags.length = 3 from rfl]
  simp only [Finset.sum_range_succ, Finset.sum_range_zero]
  simp [cexS_ag0, cexS_ag1, cexS_ag2]

/-- C3 (counterexample): on `cexSags` the all-sign assignment is an optimal
ILP solution (profit 9), yet the signed plan buys at the last step of the
implied horizon (the zero-cost buy at time 2), so `is_sign_plan_consistent`
hits the failing `assert buy_plan[len-1] == 0` and raises (modelled `none`)
instead of returning `true`. -/
theorem sign_consistency_counterexample :
    OptimalS "M" wTp cexSags (fun _ => true)
    ∧ (∀ r, sign "M" cexSags wTp (fun _ => true) = some r →
        is_sign_plan_consistent r = none) := by
  constructor
  · constructor
    · decide
    · intro σ' hf'
      rw [cexS_obj, cexS_obj]
      by_cases h0 : σ' 0 = true
      · have hc := hf' 0 (by decide) (by decide)
        rw [show (agAt cexSags 0).time = 1 from rfl] at hc
        rw [cexS_sellAt1, cexS_buyBefore1, cexS_sellBefore1] at hc
        rw [h0] at hc ⊢
        have h1 : σ' 1 = true := by
          by_contra hb
          rw [Bool.not_eq_true] at hb
          rw [hb] at hc
          simp at hc
        rw [h1]
      · rw [Bool.not_eq_true] at h0
        rw [h0]
        by_cases h1 : σ' 1 = true <;> simp [h1]
  · intro r hr
    rw [sign_ilp_path "M" cexSags wTp _ (by decide) (by decide) (by decide)] at hr
    injection hr with hr'
    subst hr'
    decide

/-! ### Greedy-vs-optimal bound (C4 machinery)

The core argument: the greedy loop's signed agreements induce a feasible
assignment of the signer ILP whose objective equals the greedy profit, so the
greedy profit is at most the optimum.  The loop's output is described by an
*allocation*: the list of satisfied sell tuples, each paired with the buy
tuples consumed for it (pairwise disjoint, drawn from the pool, all strictly
earlier than the sell, jointly covering its quantity). -/

/-- What a successful `takeCover` returns: strictly-earlier buys covering the
needed quantity, and the pool is split (as a permutation) into the consumed
buys and the remaining pool. -/
lemma takeCover_spec (stime : ℕ) : ∀ (need : ℕ) (pool used rem : List Tup),
    takeCover stime need pool = some (used, rem) →
    (∀ b ∈ used, b.time < stime)
    ∧ need ≤ (used.map (·.quantity)).sum
    ∧ pool.Perm (used ++ rem) := by
  intro need pool
  induction pool generalizing need with
  | nil => intro used rem h; cases h
  | cons b rest ih =>
    intro used rem h
    unfold takeCover at h
    by_cases hbt : b.time < stime
    · rw [if_pos hbt] at h
      by_cases hq : need ≤ b.quantity
      · rw [if_pos hq] at h
        injection h with h'
        injection h' with h1 h2
        subst h1
        subst h2
        refine ⟨?_, ?_, ?_⟩
        · intro x hx
          rw [List.mem_singleton] at hx
          subst hx
          exact hbt
        · simpa using hq
        · simp
      · rw [if_neg hq] at h
        cases hrec : takeCover stime (need - b.quantity) rest with
        | none => rw [hrec] at h; cases h
        | some p =>
          obtain ⟨used', rem'⟩ := p
          rw [hrec] at h
          injection h with h'
          injection h' with h1 h2
          subst h1
          subst h2
          obtain ⟨ht', hq', hp'⟩ := ih (need - b.quantity) used' rem' hrec
          refine ⟨?_, ?_, ?_⟩
          · intro x hx
            rcases List.mem_cons.mp hx with rfl | hx'
            · exact hbt
            · exact ht' x hx'
          · rw [List.map_cons, List.sum_cons]
            omega
          · rw [List.cons_append]
            exact hp'.cons b
    · rw [if_neg hbt] at h
      cases hrec : takeCover stime need rest with
      | none => rw [hrec] at h; cases h
      | some p =>
        obtain ⟨used', rem'⟩ := p
        rw [hrec] at h
        injection h with h'
        injection h' with h1 h2
        subst h1
        subst h2
        obtain ⟨ht', hq', hp'⟩ := ih need used' rem' hrec
        refine ⟨ht', hq', ?_⟩
        exact (hp'.cons b).trans List.perm_middle.symm

/-- The greedy loop's output, described by an allocation. -/
lemma greedy_loop_spec : ∀ (sells pool : List Tup),
    ∃ alloc : List (Tup × List Tup),
      (greedy_loop sells pool).1
        = (alloc.map (fun p => tupKey p.1 - buyCost p.2)).sum
      ∧ (greedy_loop sells pool).2.1
        = ((alloc.map Prod.snd).flatten).map (·.master)
      ∧ (greedy_loop sells pool).2.2 = alloc.map (fun p => p.1.master)
      ∧ (alloc.map Prod.fst).Sublist sells
      ∧ ((alloc.map Prod.snd).flatten).Subperm pool
      ∧ (∀ p ∈ alloc, ∀ b ∈ p.2, b.time < p.1.time)
      ∧ (∀ p ∈ alloc, p.1.quantity ≤ (p.2.map (·.quantity)).sum) := by
  intro sells
  induction sells with
  | nil =>
    intro pool
    exact ⟨[], rfl, rfl, rfl, List.Sublist.refl _, List.nil_subperm,
      fun p hp => absurd hp (List.not_mem_nil p), fun p hp => absurd hp (List.not_mem_nil p)⟩
  | cons s rest ih =>
    intro pool
    cases hc : takeCover s.time s.quantity pool with
    | none =>
      obtain ⟨alloc, h1, h2, h3, h4, h5, h6, h7⟩ := ih pool
      have hg : greedy_loop (s :: rest) pool = greedy_loop rest pool := by
        simp only [greedy_loop, hc]
      rw [hg]
      exact ⟨alloc, h1, h2, h3, h4.cons s, h5, h6, h7⟩
    | some pr =>
      obtain ⟨used, pool'⟩ := pr
      obtain ⟨ht, hq, hperm⟩ := takeCover_spec s.time s.quantity pool used pool' hc
      obtain ⟨alloc, h1, h2, h3, h4, h5, h6, h7⟩ := ih pool'
      have hg : greedy_loop (s :: rest) pool
          = (tupKey s - buyCost used + (greedy_loop rest pool').1,
             used.map (·.master) ++ (greedy_loop rest pool').2.1,
             s.master :: (greedy_loop rest pool').2.2) := by
        simp only [greedy_loop, hc]
      rw [hg]
      refine ⟨(s, used) :: alloc, ?_, ?_, ?_, ?_, ?_, ?_, ?_⟩
      · rw [List.map_cons, List.sum_cons, h1]
      · rw [List.map_cons, List.flatten_cons, List.map_append, h2]
      · rw [List.map_cons, h3]
      · rw [List.map_cons]
        exact h4.cons₂ s
      · rw [List.map_cons, List.flatten_cons]
        refine List.Subperm.trans ?_ hperm.symm.subperm
        exact (List.subperm_append_left used).mpr h5
      · intro p hp
        rcases List.mem_cons.mp hp with rfl | hp'
        · exact ht
        · exact h6 p hp'
      · intro p hp
        rcases List.mem_cons.mp hp with rfl | hp'
        · simpa using hq
        · exact h7 p hp'

lemma subperm_map {α β : Type} (f : α → β) {l₁ l₂ : List α}
    (h : l₁.Subperm l₂) : (l₁.map f).Subperm (l₂.map f) := by
  obtain ⟨l, hp, hs⟩ := h
  exact ⟨l.map f, hp.map f, hs.map f⟩

lemma subperm_nodup {α : Type} {l₁ l₂ : List α} (h : l₁.Subperm l₂)
    (hnd : l₂.Nodup) : l₁.Nodup := by
  obtain ⟨l, hp, hs⟩ := h
  exact hp.nodup_iff.mp (hnd.sublist hs)

lemma sublist_flatten {α : Type} {L₁ L₂ : List (List α)} (h : L₁.Sublist L₂) :
    L₁.flatten.Sublist L₂.flatten := by
  induction h with
  | slnil => exact List.Sublist.refl _
  | cons a _ ih =>
    rw [List.flatten_cons]
    exact ih.trans (List.sublist_append_right a _)
  | cons₂ a _ ih =>
    rw [List.flatten_cons, List.flatten_cons]
    exact ih.append_left a

lemma sublist_filter_of_all {α : Type} {l₁ l₂ : List α} (p : α → Bool)
    (h : l₁.Sublist l₂) (hall : ∀ x ∈ l₁, p x = true) :
    l₁.Sublist (l₂.filter p) := by
  have h1 : l₁.filter p = l₁ := List.filter_eq_self.mpr hall
  rw [← h1]
  exact h.filter p

lemma list_sum_sub {α : Type} (l : List α) (f g : α → ℚ) :
    (l.map (fun x => f x - g x)).sum = (l.map f).sum - (l.map g).sum := by
  induction l with
  | nil => simp
  | cons a t ih =>
    simp only [List.map_cons, List.sum_cons, ih]
    ring

lemma partitionSide_masters (agent_id : String) (tp : List (String × ℚ))
    (ags : List Contract) (side : Bool) :
    (partitionSide agent_id tp ags side).map (·.master)
      = (List.range ags.length).filter (fun i => (agAt ags i).is_buy = side) := by
  unfold partitionSide
  rw [List.map_map]
  have h : ((·.master) ∘ mkTup agent_id tp ags) = id := rfl
  rw [h, List.map_id]

lemma mem_partitionSide {agent_id : String} {tp : List (String × ℚ)}
    {ags : List Contract} {side : Bool} {a : Tup}
    (h : a ∈ partitionSide agent_id tp ags side) :
    a.master < ags.length ∧ (agAt ags a.master).is_buy = side
      ∧ a = mkTup agent_id tp ags a.master := by
  unfold partitionSide at h
  rw [List.mem_map] at h
  obtain ⟨i, hi, rfl⟩ := h
  rw [List.mem_filter, List.mem_range] at hi
  exact ⟨hi.1, by simpa using hi.2, rfl⟩

/-- The tuple fields in terms of the agreement at the tuple's master index. -/
lemma tup_fields {agent_id : String} {tp : List (String × ℚ)}
    {ags : List Contract} {a : Tup}
    (h : a = mkTup agent_id tp ags a.master) :
    (agAt ags a.master).time = a.time
      ∧ (agAt ags a.master).quantity = a.quantity
      ∧ valueOf agent_id tp ags a.master = tupKey a := by
  refine ⟨?_, ?_, ?_⟩
  · conv_rhs => rw [h]
    rfl
  · conv_rhs => rw [h]
    rfl
  · conv_rhs => rw [h]
    rfl

lemma mem_sortedSells {agent_id : String} {tp : List (String × ℚ)}
    {ags : List Contract} {a : Tup} (h : a ∈ sortedSells agent_id tp ags) :
    a.master < ags.length ∧ (agAt ags a.master).is_buy = false
      ∧ a = mkTup agent_id tp ags a.master :=
  mem_partitionSide ((List.mergeSort_perm _ _).mem_iff.mp h)

lemma mem_sortedBuys {agent_id : String} {tp : List (String × ℚ)}
    {ags : List Contract} {a : Tup} (h : a ∈ sortedBuys agent_id tp ags) :
    a.master < ags.length ∧ (agAt ags a.master).is_buy = true
      ∧ a = mkTup agent_id tp ags a.master :=
  mem_partitionSide ((List.mergeSort_perm _ _).mem_iff.mp h)

lemma sorted_masters_nodup (agent_id : String) (tp : List (String × ℚ))
    (ags : List Contract) :
    ((sortedSells agent_id tp ags).map (·.master)).Nodup
      ∧ ((sortedBuys agent_id tp ags).map (·.master)).Nodup := by
  constructor
  · have hp := List.Perm.map (·.master)
      (List.mergeSort_perm (partitionSide agent_id tp ags false)
        (fun a b => decide (tupKey b ≤ tupKey a)))
    apply hp.nodup_iff.mpr
    rw [partitionSide_masters]
    exact (List.nodup_range _).filter _
  · have hp := List.Perm.map (·.master)
      (List.mergeSort_perm (partitionSide agent_id tp ags true)
        (fun a b => decide (tupKey a ≤ tupKey b)))
    apply hp.nodup_iff.mpr
    rw [partitionSide_masters]
    exact (List.nodup_range _).filter _

/-- The masters the greedy signer reports as signed. -/
def sigOf (B S : List ℕ) : ℕ → Bool := fun i => decide (i ∈ B ∨ i ∈ S)

/-- Well-formed master lists: indices of agreements of the given side. -/
def mastersOK (ags : List Contract) (side : Bool) (M : List ℕ) : Prop :=
  ∀ m ∈ M, m < ags.length ∧ (agAt ags m).is_buy = side

lemma sigOf_sell_iff {ags : List Contract} {B S : List ℕ}
    (hB : mastersOK ags true B) {i : ℕ}
    (hsell : (agAt ags i).is_buy = false) :
    sigOf B S i = true ↔ i ∈ S := by
  unfold sigOf
  rw [decide_eq_true_eq]
  constructor
  · rintro (hb | hs)
    · have hside := (hB i hb).2
      rw [hsell] at hside
      cases hside
    · exact hs
  · exact Or.inr

lemma sigOf_buy_iff {ags : List Contract} {B S : List ℕ}
    (hS : mastersOK ags false S) {i : ℕ}
    (hbuy : (agAt ags i).is_buy = true) :
    sigOf B S i = true ↔ i ∈ B := by
  unfold sigOf
  rw [decide_eq_true_eq]
  constructor
  · rintro (hb | hs)
    · exact hb
    · have hside := (hS i hs).2
      rw [hbuy] at hside
      cases hside
  · exact Or.inl

/-- A side's signed-quantity sum, restricted by a time predicate, in terms of
the signed master list. -/
lemma qty_sum_of_masters (ags : List Contract) (σg : ℕ → Bool) (side : Bool)
    (P : ℕ → Prop) [DecidablePred P] (M : List ℕ) (hnd : M.Nodup)
    (hM : mastersOK ags side M)
    (hiff : ∀ i < ags.length, (agAt ags i).is_buy = side →
      (σg i = true ↔ i ∈ M)) :
    (∑ i ∈ (Finset.range ags.length).filter
        (fun i => (agAt ags i).is_buy = side ∧ P ((agAt ags i).time)),
      (if σg i then (agAt ags i).quantity else 0))
    = ((M.filter (fun m => decide (P ((agAt ags m).time)))).map
        (fun m => (agAt ags m).quantity)).sum := by
  have h1 : ∀ i ∈ (Finset.range ags.length).filter
      (fun i => (agAt ags i).is_buy = side ∧ P ((agAt ags i).time)),
      (if σg i then (agAt ags i).quantity else 0)
        = (if i ∈ M.toFinset then (agAt ags i).quantity else 0) := by
    intro i hi
    rw [Finset.mem_filter, Finset.mem_range] at hi
    by_cases hσ : σg i = true
    · have hm : i ∈ M := (hiff i hi.1 hi.2.1).mp hσ
      simp [hσ, List.mem_toFinset, hm]
    · have hm : i ∉ M := fun hm => hσ ((hiff i hi.1 hi.2.1).mpr hm)
      rw [Bool.not_eq_true] at hσ
      simp [hσ, List.mem_toFinset, hm]
  rw [Finset.sum_congr rfl h1, Finset.sum_ite_mem]
  have h2 : (Finset.range ags.length).filter
      (fun i => (agAt ags i).is_buy = side ∧ P ((agAt ags i).time))
        ∩ M.toFinset
      = (M.filter (fun m => decide (P ((agAt ags m).time)))).toFinset := by
    ext m
    rw [Finset.mem_inter, Finset.mem_filter, Finset.mem_range,
      List.mem_toFinset, List.mem_toFinset, List.mem_filter]
    constructor
    · rintro ⟨⟨_, _, hP⟩, hm⟩
      exact ⟨hm, by simpa using hP⟩
    · rintro ⟨hm, hP⟩
      obtain ⟨hlt, hside⟩ := hM m hm
      exact ⟨⟨hlt, hside, by simpa using hP⟩, hm⟩
  rw [h2, List.sum_toFinset _ (hnd.filter _)]

/-- A side's objective contribution in terms of the signed master list. -/
lemma value_sum_of_masters (agent_id : String) (tp : List (String × ℚ))
    (ags : List Contract) (σg : ℕ → Bool) (side : Bool) (M : List ℕ)
    (hnd : M.Nodup) (hM : mastersOK ags side M)
    (hiff : ∀ i < ags.length, (agAt ags i).is_buy = side →
      (σg i = true ↔ i ∈ M)) :
    sideObj agent_id tp ags side σg
      = (M.map (valueOf agent_id tp ags)).sum := by
  unfold sideObj
  have h1 : ∀ i ∈ (Finset.range ags.length).filter
      (fun i => (agAt ags i).is_buy = side),
      (if σg i then valueOf agent_id tp ags i else 0)
        = (if i ∈ M.toFinset then valueOf agent_id tp ags i else 0) := by
    intro i hi
    rw [Finset.mem_filter, Finset.mem_range] at hi
    by_cases hσ : σg i = true
    · have hm : i ∈ M := (hiff i hi.1 hi.2).mp hσ
      simp [hσ, List.mem_toFinset, hm]
    · have hm : i ∉ M := fun hm => hσ ((hiff i hi.1 hi.2).mpr hm)
      rw [Bool.not_eq_true] at hσ
      simp [hσ, List.mem_toFinset, hm]
  rw [Finset.sum_congr rfl h1, Finset.sum_ite_mem]
  have h2 : (Finset.range ags.length).filter
      (fun i => (agAt ags i).is_buy = side) ∩ M.toFinset = M.toFinset := by
    apply Finset.inter_eq_right.mpr
    intro m hm
    rw [List.mem_toFinset] at hm
    obtain ⟨hlt, hside⟩ := hM m hm
    rw [Finset.mem_filter, Finset.mem_range]
    exact ⟨hlt, hside⟩
  rw [h2, List.sum_toFinset _ hnd]

/-- Splitting the strict-prefix sell sum at its last time step. -/
lemma sellQtyBefore_succ (ags : List Contract) (σ : ℕ → Bool) (T : ℕ) :
    sellQtyBefore ags σ (T + 1)
      = sellQtyBefore ags σ T + sellQtyAt ags σ T := by
  unfold sellQtyBefore sellQtyAt
  rw [← Finset.sum_filter_add_sum_filter_not
    ((Finset.range ags.length).filter
      (fun i => (agAt ags i).is_buy = false ∧ (agAt ags i).time < T + 1))
    (fun i => (agAt ags i).time < T)]
  congr 1
  · apply Finset.sum_congr _ (fun _ _ => rfl)
    rw [Finset.filter_filter]
    apply Finset.filter_congr
    intro i _
    constructor
    · rintro ⟨⟨hs, _⟩, ht⟩
      exact ⟨hs, ht⟩
    · rintro ⟨hs, ht⟩
      exact ⟨⟨hs, by omega⟩, ht⟩
  · apply Finset.sum_congr _ (fun _ _ => rfl)
    rw [Finset.filter_filter]
    apply Finset.filter_congr
    intro i _
    constructor
    · rintro ⟨⟨hs, h1⟩, h2⟩
      rw [not_lt] at h2
      exact ⟨hs, by omega⟩
    · rintro ⟨hs, ht⟩
      exact ⟨⟨hs, by omega⟩, by omega⟩

lemma buyCost_eq_map_tupKey (used : List Tup) :
    buyCost used = (used.map tupKey).sum := rfl

/-- Core of C4: the greedy profit never exceeds the objective of an optimal
ILP solution, because the greedy allocation induces a feasible assignment of
the ILP whose objective equals the greedy profit. -/
lemma greedy_profit_le_optimal (agent_id : String) (ags : List Contract)
    (tp : List (String × ℚ)) (σ : ℕ → Bool)
    (hopt : OptimalS agent_id tp ags σ) :
    (greedy_loop (sortedSells agent_id tp ags) (sortedBuys agent_id tp ags)).1
      ≤ objS agent_id tp ags σ := by
  obtain ⟨alloc, h1, h2, h3, h4, h5, h6, h7⟩ :=
    greedy_loop_spec (sortedSells agent_id tp ags) (sortedBuys agent_id tp ags)
  set S : List ℕ := alloc.map (fun p => p.1.master) with hS
  set B : List ℕ := ((alloc.map Prod.snd).flatten).map (fun b => b.master) with hB
  have hSells : ∀ p ∈ alloc, p.1 ∈ sortedSells agent_id tp ags := by
    intro p hp
    exact h4.subset (List.mem_map_of_mem Prod.fst hp)
  have hBuysMem : ∀ b ∈ (alloc.map Prod.snd).flatten,
      b ∈ sortedBuys agent_id tp ags := by
    intro b hb
    exact h5.subset hb
  have hSok : mastersOK ags false S := by
    intro m hm
    rw [hS, List.mem_map] at hm
    obtain ⟨p, hp, rfl⟩ := hm
    obtain ⟨hlt, hside, _⟩ := mem_sortedSells (hSells p hp)
    exact ⟨hlt, hside⟩
  have hBok : mastersOK ags true B := by
    intro m hm
    rw [hB, List.mem_map] at hm
    obtain ⟨b, hb, rfl⟩ := hm
    obtain ⟨hlt, hside, _⟩ := mem_sortedBuys (hBuysMem b hb)
    exact ⟨hlt, hside⟩
  have hSnd : S.Nodup := by
    have hrw : S = (alloc.map Prod.fst).map (fun x => x.master) := by
      rw [hS, List.map_map]
      rfl
    rw [hrw]
    exact List.Nodup.sublist (h4.map _) (sorted_masters_nodup agent_id tp ags).1
  have hBnd : B.Nodup := by
    have hsubp : B.Subperm ((sortedBuys agent_id tp ags).map (fun x => x.master)) := by
      rw [hB]
      exact subperm_map _ h5
    exact subperm_nodup hsubp (sorted_masters_nodup agent_id tp ags).2
  have hiffS : ∀ i < ags.length, (agAt ags i).is_buy = false →
      (sigOf B S i = true ↔ i ∈ S) := fun i _ hside => sigOf_sell_iff hBok hside
  have hiffB : ∀ i < ags.length, (agAt ags i).is_buy = true →
      (sigOf B S i = true ↔ i ∈ B) := fun i _ hside => sigOf_buy_iff hSok hside
  -- the greedy assignment's objective equals the greedy profit
  have hobj : objS agent_id tp ags (sigOf B S)
      = (greedy_loop (sortedSells agent_id tp ags) (sortedBuys agent_id tp ags)).1 := by
    unfold objS
    rw [value_sum_of_masters agent_id tp ags _ false S hSnd hSok hiffS,
      value_sum_of_masters agent_id tp ags _ true B hBnd hBok hiffB]
    have hrev : (S.map (valueOf agent_id tp ags)).sum
        = (alloc.map (fun p => tupKey p.1)).sum := by
      rw [hS, List.map_map]
      apply congrArg
      apply List.map_congr_left
      intro p hp
      exact (tup_fields (mem_sortedSells (hSells p hp)).2.2).2.2
    have hcost : (B.map (valueOf agent_id tp ags)).sum
        = (alloc.map (fun p => buyCost p.2)).sum := by
      rw [hB, List.map_map]
      have hcongr : ((alloc.map Prod.snd).flatten).map
          ((valueOf agent_id tp ags) ∘ (fun b => b.master))
          = ((alloc.map Prod.snd).flatten).map tupKey := by
        apply List.map_congr_left
        intro b hb
        exact (tup_fields (mem_sortedBuys (hBuysMem b hb)).2.2).2.2
      rw [hcongr, List.map_flatten, List.sum_flatten, List.map_map, List.map_map]
      apply congrArg
      apply List.map_congr_left
      intro p _
      rw [buyCost_eq_map_tupKey]
      rfl
    rw [hrev, hcost, h1, ← list_sum_sub]
  -- the greedy assignment is feasible for the ILP
  have hfeas : FeasibleS ags (sigOf B S) := by
    intro j hj hsj
    have hmain : sellQtyBefore ags (sigOf B S) ((agAt ags j).time + 1)
        ≤ buyQtyBefore ags (sigOf B S) ((agAt ags j).time) := by
      set T := (agAt ags j).time with hT
      have hLHS : sellQtyBefore ags (sigOf B S) (T + 1)
          = ((S.filter (fun m => decide ((agAt ags m).time < T + 1))).map
              (fun m => (agAt ags m).quantity)).sum :=
        qty_sum_of_masters ags _ false (fun t => t < T + 1) S hSnd hSok hiffS
      have hRHS : buyQtyBefore ags (sigOf B S) T
          = ((B.filter (fun m => decide ((agAt ags m).time < T))).map
              (fun m => (agAt ags m).quantity)).sum :=
        qty_sum_of_masters ags _ true (fun t => t < T) B hBnd hBok hiffB
      set allocT := alloc.filter (fun p => decide (p.1.time < T + 1)) with hAT
      have hSfilt : S.filter (fun m => decide ((agAt ags m).time < T + 1))
          = allocT.map (fun p => p.1.master) := by
        rw [hS, List.filter_map, hAT]
        apply congrArg
        apply List.filter_congr
        intro p hp
        show decide ((agAt ags ((fun p => p.1.master) p)).time < T + 1)
          = decide (p.1.time < T + 1)
        rw [(tup_fields (mem_sortedSells (hSells p hp)).2.2).1]
      set FT := (allocT.map Prod.snd).flatten with hFT
      have hATsub : allocT.Sublist alloc := List.filter_sublist _
      have hFTsub : FT.Sublist ((alloc.map Prod.snd).flatten) := by
        rw [hFT]
        exact sublist_flatten (hATsub.map Prod.snd)
      have hFTmem : ∀ b ∈ FT, b ∈ sortedBuys agent_id tp ags :=
        fun b hb => hBuysMem b (hFTsub.subset hb)
      have hFTtime : ∀ b ∈ FT, b.time < T := by
        intro b hb
        rw [hFT, List.mem_flatten] at hb
        obtain ⟨l, hl, hbl⟩ := hb
        rw [List.mem_map] at hl
        obtain ⟨p, hpT, rfl⟩ := hl
        rw [hAT, List.mem_filter] at hpT
        have hbt := h6 p hpT.1 b hbl
        have hpt : p.1.time < T + 1 := by simpa using hpT.2
        omega
      have step1 : ((S.filter (fun m => decide ((agAt ags m).time < T + 1))).map
            (fun m => (agAt ags m).quantity)).sum
          = (allocT.map (fun p => p.1.quantity)).sum := by
        rw [hSfilt, List.map_map]
        apply congrArg
        apply List.map_congr_left
        intro p hp
        exact (tup_fields (mem_sortedSells
          (hSells p (hATsub.subset hp))).2.2).2.1
      have step2 : (allocT.map (fun p => p.1.quantity)).sum
          ≤ (allocT.map (fun p => (p.2.map (fun b => b.quantity)).sum)).sum := by
        apply List.sum_le_sum
        intro p hp
        exact h7 p (hATsub.subset hp)
      have step3 : (allocT.map (fun p => (p.2.map (fun b => b.quantity)).sum)).sum
          = (FT.map (fun b => b.quantity)).sum := by
        rw [hFT, List.map_flatten, List.sum_flatten, List.map_map, List.map_map]
        rfl
      have step4 : (FT.map (fun b => b.quantity)).sum
          = ((FT.map (fun b => b.master)).map
              (fun m => (agAt ags m).quantity)).sum := by
        rw [List.map_map]
        apply congrArg
        apply List.map_congr_left
        intro b hb
        exact ((tup_fields (mem_sortedBuys (hFTmem b hb)).2.2).2.1).symm
      have hmast_sublist : (FT.map (fun b => b.master)).Sublist
          (B.filter (fun m => decide ((agAt ags m).time < T))) := by
        apply sublist_filter_of_all
        · rw [hB]
          exact hFTsub.map _
        · intro m hm
          rw [List.mem_map] at hm
          obtain ⟨b, hb, rfl⟩ := hm
          rw [decide_eq_true_eq,
            (tup_fields (mem_sortedBuys (hFTmem b hb)).2.2).1]
          exact hFTtime b hb
      have step5 : ((FT.map (fun b => b.master)).map
            (fun m => (agAt ags m).quantity)).sum
          ≤ ((B.filter (fun m => decide ((agAt ags m).time < T))).map
              (fun m => (agAt ags m).quantity)).sum :=
        List.Sublist.sum_le_sum (hmast_sublist.map _) (fun a _ => Nat.zero_le a)
      rw [hLHS, hRHS]
      calc ((S.filter (fun m => decide ((agAt ags m).time < T + 1))).map
            (fun m => (agAt ags m).quantity)).sum
          = (allocT.map (fun p => p.1.quantity)).sum := step1
        _ ≤ (allocT.map (fun p => (p.2.map (fun b => b.quantity)).sum)).sum := step2
        _ = (FT.map (fun b => b.quantity)).sum := step3
        _ = ((FT.map (fun b => b.master)).map
              (fun m => (agAt ags m).quantity)).sum := step4
        _ ≤ ((B.filter (fun m => decide ((agAt ags m).time < T))).map
              (fun m => (agAt ags m).quantity)).sum := step5
    have hsucc := sellQtyBefore_succ ags (sigOf B S) ((agAt ags j).time)
    omega
  rw [← hobj]
  exact hopt.2 (sigOf B S) hfeas

/-- C4 (amended): whenever the optimal signer actually reaches its ILP
(non-empty valid input with at least one sell agreement) and the solver
returns an optimal solution, the greedy signer's reported profit is at most
the optimal signer's reported profit plus the `1e-5` tolerance.  (On inputs
where `sign` short-circuits, its profit is `None` and the comparison is
vacuous; the repository's own test guards on `profit is not None`.) -/
theorem greedy_le_sign_profit (agent_id : String) (ags : List Contract)
    (tp : List (String × ℚ)) (σ : ℕ → Bool)
    (hvalid : ValidInput agent_id ags tp = true)
    (hsell : (ags.filter (fun c => c.is_buy = false)).length ≠ 0)
    (hopt : OptimalS agent_id tp ags σ) :
    ∃ g r, greedy_signer agent_id ags tp = some g
      ∧ sign agent_id ags tp σ = some r
      ∧ r.profit = some (objS agent_id tp ags σ)
      ∧ g.profit ≤ objS agent_id tp ags σ + 1 / 100000 := by
  have hne : ags.length ≠ 0 := by
    intro h
    rw [List.length_eq_zero] at h
    subst h
    simp at hsell
  have hg : greedy_signer agent_id ags tp
      = some ⟨agent_id, ags,
          (List.range ags.length).map
            (fun i => if i ∈ (greedy_loop (sortedSells agent_id tp ags)
                  (sortedBuys agent_id tp ags)).2.1
                ∨ i ∈ (greedy_loop (sortedSells agent_id tp ags)
                  (sortedBuys agent_id tp ags)).2.2
              then some agent_id else none),
          tp, (greedy_loop (sortedSells agent_id tp ags)
            (sortedBuys agent_id tp ags)).1⟩ := by
    unfold greedy_signer
    rw [if_neg (by simp [hvalid])]
  refine ⟨_, _, hg, sign_ilp_path agent_id ags tp σ hne hvalid hsell, rfl, ?_⟩
  have hle := greedy_profit_le_optimal agent_id ags tp σ hopt
  show (greedy_loop (sortedSells agent_id tp ags) (sortedBuys agent_id tp ags)).1
    ≤ objS agent_id tp ags σ + 1 / 100000
  have hpos : (0 : ℚ) < 1 / 100000 := by norm_num
  linarith

/-- Witness for the amended C4 at `wAgs` with the all-skip optimal solution. -/
theorem greedy_le_sign_profit_witness :
    ∃ g r, greedy_signer "M" wAgs wTp = some g
      ∧ sign "M" wAgs wTp (fun _ => false) = some r
      ∧ r.profit = some (objS "M" wTp wAgs (fun _ => false))
      ∧ g.profit ≤ objS "M" wTp wAgs (fun _ => false) + 1 / 100000 :=
  greedy_le_sign_profit "M" wAgs wTp (fun _ => false) (by decide) (by decide)
    (wAgs_optimal _ (feasibleS_zero wAgs))

/-- C4 (counterexample): on an all-buy input, `sign` reports a null profit
while `greedy_signer` reports the number 0, so the claimed inequality
`greedy_profit ≤ sign_profit + 1e-5` does not even type-check on the code's
outputs: there is no number `p` with `sign(...)['profit'] = p`. -/
theorem greedy_profit_vs_null_sign_profit :
    (∀ (σ : ℕ → Bool) r, sign "M" [⟨["M", "O"], 1, 0, 0, true⟩] wTp σ = some r →
      r.profit = none)
    ∧ (∃ g, greedy_signer "M" [⟨["M", "O"], 1, 0, 0, true⟩] wTp = some g
        ∧ g.profit = 0) := by
  constructor
  · intro σ r hr
    rw [sign_no_sell_path "M" _ wTp σ (by decide) (by decide) (by decide)] at hr
    injection hr with hr'
    subst hr'
    rfl
  · have hps : partitionSide "M" wTp [⟨["M", "O"], 1, 0, 0, true⟩] false = [] := rfl
    have hs : sortedSells "M" wTp [⟨["M", "O"], 1, 0, 0, true⟩] = [] := by
      unfold sortedSells
      rw [hps, List.mergeSort_nil]
    have hg : greedy_signer "M" [⟨["M", "O"], 1, 0, 0, true⟩] wTp
        = some ⟨"M", [⟨["M", "O"], 1, 0, 0, true⟩],
            (List.range 1).map
              (fun i => if i ∈ (greedy_loop
                    (sortedSells "M" wTp [⟨["M", "O"], 1, 0, 0, true⟩])
                    (sortedBuys "M" wTp [⟨["M", "O"], 1, 0, 0, true⟩])).2.1
                  ∨ i ∈ (greedy_loop
                    (sortedSells "M" wTp [⟨["M", "O"], 1, 0, 0, true⟩])
                    (sortedBuys "M" wTp [⟨["M", "O"], 1, 0, 0, true⟩])).2.2
                then some "M" else none),
            wTp, (greedy_loop
              (sortedSells "M" wTp [⟨["M", "O"], 1, 0, 0, true⟩])
              (sortedBuys "M" wTp [⟨["M", "O"], 1, 0, 0, true⟩])).1⟩ := by
      have hv : ValidInput "M" [⟨["M", "O"], 1, 0, 0, true⟩] wTp = true := by
        decide
      unfold greedy_signer
      rw [if_neg (by simp [hv])]
      rfl
    refine ⟨_, hg, ?_⟩
    show (greedy_loop (sortedSells "M" wTp [⟨["M", "O"], 1, 0, 0, true⟩])
      (sortedBuys "M" wTp [⟨["M", "O"], 1, 0, 0, true⟩])).1 = 0
    rw [hs]
    rfl

end SCML
